import Mathlib

/-!
The program `measure.c` of core-to-core-latency.

A shallow embedding of `src/measure.c` and the properties of its barrier,
its handoff protocol, its timing arithmetic and its sweep.

Conventions of the embedding.

* C `int` is 32 bits, C `long` (and `time_t`) 64 bits, both two's complement
  (the program is written for Apple platforms).  Values are Lean `Int`s and
  every conversion or operation that can leave the range is wrapped
  explicitly with `toInt32` / `toInt64`.
* C `double` is IEEE-754 binary64 with round-to-nearest-even; finite values
  are the rationals they denote (the two signed zeros are identified).
* Threads are interleaved at the granularity of their visible atomic actions;
  an interleaving is a list of `Role`s saying which thread moves next.
-/

namespace C2C

/-! ## Machine integers -/

/-- Two's-complement value of an integer stored in a 32-bit `int`. -/
def toInt32 (z : Int) : Int := (z + 2147483648) % 4294967296 - 2147483648

/-- Two's-complement value of an integer stored in a 64-bit `long`. -/
def toInt64 (z : Int) : Int :=
  (z + 9223372036854775808) % 18446744073709551616 - 9223372036854775808

/-- Largest `unsigned int`. -/
def UINT_MAX : Nat := 4294967295

/-- Largest `int`. -/
def INT_MAX : Nat := 2147483647

/-- The `errno` value for an invalid argument. -/
def EINVAL : Int := 22

/-! ## The barrier shim (`pthread_barrier_t`, lines 10-66) -/

/-- The two integer fields of `pthread_barrier_t`.  The mutex and the condition
variable are platform objects; their effect is modelled where they are used. -/
structure pthread_barrier_t where
  count : Int
  tripCount : Int
deriving DecidableEq

/-- What a call of `pthread_barrier_init` leaves behind: its return value, the
value of `errno`, and the barrier object. -/
structure InitResult where
  ret : Int
  errno : Int
  barrier : pthread_barrier_t
deriving DecidableEq

/-- The function `pthread_barrier_init(barrier, attr, count)`.  `count` is the
`unsigned int` argument; `mutexRet` and `condRet` are the values returned by
`pthread_mutex_init` and `pthread_cond_init`; `errno` is the value of `errno`
on entry.  The assignment `barrier->tripCount = count` converts the
`unsigned int` to `int`. -/
def pthread_barrier_init (barrier : pthread_barrier_t) (count : Nat)
    (mutexRet condRet : Int) (errno : Int) : InitResult :=
  if count = 0 then
    { ret := -1, errno := EINVAL, barrier := barrier }
  else if mutexRet < 0 then
    { ret := -1, errno := errno, barrier := barrier }
  else if condRet < 0 then
    { ret := -1, errno := errno, barrier := barrier }
  else
    { ret := 0, errno := errno,
      barrier := { tripCount := toInt32 count, count := 0 } }

/-- The part of `pthread_barrier_wait` executed under the mutex on arrival:
`++count`, the comparison with `tripCount`, and the choice of branch.  The
second component is the value the call returns: `1` on the releaser branch
(which has reset `count` and broadcast), `0` on the waiting branch (returned
once the caller has been woken from `pthread_cond_wait`). -/
def pthread_barrier_wait (barrier : pthread_barrier_t) : pthread_barrier_t × Int :=
  let c := toInt32 (barrier.count + 1)
  if c ≥ barrier.tripCount then
    ({ barrier with count := 0 }, 1)
  else
    ({ barrier with count := c }, 0)

/-- The barrier after `k` successive arrivals. -/
def barrierAfter (b : pthread_barrier_t) : Nat → pthread_barrier_t
  | 0 => b
  | k + 1 => (pthread_barrier_wait (barrierAfter b k)).1

/-- The result of the call that arrives after `k` earlier arrivals (the
`k+1`-th call). -/
def waitResult (b : pthread_barrier_t) (k : Nat) : Int :=
  (pthread_barrier_wait (barrierAfter b k)).2

/-- The results of the first `k` calls, in arrival order. -/
def waitResults (b : pthread_barrier_t) (k : Nat) : List Int :=
  (List.range k).map (waitResult b)

/-- A barrier together with the threads inside `pthread_barrier_wait`.
`blocked` counts the callers sleeping in `pthread_cond_wait`, `woken` the
callers a broadcast has woken and that have not returned yet; `arrived` and
`returned` count the calls that have entered and that have returned. -/
structure BarrierSys where
  barrier : pthread_barrier_t
  blocked : Nat
  woken : Nat
  arrived : Nat
  returned : Nat
deriving DecidableEq

/-- The steps of the barrier.  `arrive`: a thread arrives in
`pthread_barrier_wait`.  `wake`: a caller that a broadcast has woken leaves
`pthread_cond_wait` and returns.  `spurious`: a sleeping caller leaves
`pthread_cond_wait` although no broadcast has happened, as POSIX allows
`pthread_cond_wait` to do, and returns: lines 60-64 call `pthread_cond_wait`
once, with no loop around it that would test a condition again. -/
inductive BarrierEvent where
  | arrive
  | wake
  | spurious
deriving DecidableEq

/-- One step of the barrier system.  An arrival on the releaser branch wakes
every sleeping caller and returns at once; an arrival on the waiting branch goes
to sleep.  A `wake` step needs a woken caller and a `spurious` step a sleeping
one; each is a no-op otherwise.  A caller that returns after a spurious wake-up
has changed nothing in the barrier: `count` still includes it. -/
def BarrierSys.step (s : BarrierSys) : BarrierEvent → BarrierSys
  | .arrive =>
    let r := pthread_barrier_wait s.barrier
    if r.2 = 1 then
      { barrier := r.1, blocked := 0, woken := s.woken + s.blocked,
        arrived := s.arrived + 1, returned := s.returned + 1 }
    else
      { barrier := r.1, blocked := s.blocked + 1, woken := s.woken,
        arrived := s.arrived + 1, returned := s.returned }
  | .wake =>
    if 0 < s.woken then
      { s with woken := s.woken - 1, returned := s.returned + 1 }
    else s
  | .spurious =>
    if 0 < s.blocked then
      { s with blocked := s.blocked - 1, returned := s.returned + 1 }
    else s

/-- The barrier system after a sequence of steps. -/
def BarrierSys.run (s : BarrierSys) (es : List BarrierEvent) : BarrierSys :=
  es.foldl BarrierSys.step s

/-- The barrier system right after a successful `pthread_barrier_init`. -/
def BarrierSys.init (b : pthread_barrier_t) : BarrierSys :=
  { barrier := b, blocked := 0, woken := 0, arrived := 0, returned := 0 }

/-- The barrier of the program: `pthread_barrier_init(&barrier, NULL, 2)` with
both platform initialisations succeeding, from a zero-initialised global. -/
def barrier2 : pthread_barrier_t :=
  (pthread_barrier_init { count := 0, tripCount := 0 } 2 0 0 0).barrier

/-- Invariant of a two-party barrier as long as no spurious wake-up happens:
the count of the barrier and the number of sleeping callers are both
`arrived mod 2`, and the calls that have returned or been woken are exactly the
members of completed pairs of arrivals. -/
def BarrierInv (s : BarrierSys) : Prop :=
  s.barrier = { count := ((s.arrived % 2 : Nat) : Int), tripCount := 2 } ∧
  s.blocked = s.arrived % 2 ∧
  s.returned + s.woken = 2 * (s.arrived / 2)


/-! ## IEEE-754 binary64 (`double`) -/

/-- Rounding of a rational to the nearest integer, ties to the even one. -/
def roundHalfEven (s : ℚ) : ℤ :=
  if s - ⌊s⌋ < 1 / 2 then ⌊s⌋
  else if 1 / 2 < s - ⌊s⌋ then ⌊s⌋ + 1
  else if ⌊s⌋ % 2 = 0 then ⌊s⌋ else ⌊s⌋ + 1

/-- Exponent of the unit in the last place of the binary64 numbers around `q`:
53 significant bits, and never below the subnormal spacing `2^-1074`. -/
def ulpExp (q : ℚ) : ℤ := max (Int.log 2 |q| - 52) (-1074)

/-- Round-to-nearest-even onto the binary64 grid with unbounded exponent
above: the value an operation delivers when it does not overflow. -/
def roundBinary64 (q : ℚ) : ℚ :=
  (roundHalfEven (q / (2 : ℚ) ^ ulpExp q) : ℚ) * (2 : ℚ) ^ ulpExp q

/-- Largest finite binary64 number, `(2^53 - 1) * 2^971`. -/
def DBL_MAX : ℚ := (2 ^ 53 - 1) * 2 ^ 971

/-- Values of a C `double`: the finite ones by the rational they denote, the
two infinities and NaN.  The zeros `+0.0` and `-0.0` are both `finite 0`. -/
inductive Double where
  | finite (v : ℚ)
  | infinite (negative : Bool)
  | nan
deriving DecidableEq

/-- The `double` an exact real result is delivered as: rounded to nearest even,
and an infinity when the rounded magnitude exceeds `DBL_MAX`. -/
def Double.ofRat (q : ℚ) : Double :=
  if |roundBinary64 q| ≤ DBL_MAX then .finite (roundBinary64 q)
  else .infinite (decide (q < 0))

/-- Conversion of an integer (`int`, `long`) to `double`. -/
def Double.ofInt (z : ℤ) : Double := Double.ofRat (z : ℚ)

/-- The `double` addition `a + b`. -/
def Double.add : Double → Double → Double
  | .finite a, .finite b => Double.ofRat (a + b)
  | .finite _, .infinite s => .infinite s
  | .infinite s, .finite _ => .infinite s
  | .infinite s, .infinite t => if s = t then .infinite s else .nan
  | .nan, _ => .nan
  | _, .nan => .nan

/-- The `double` division `a / b`.  A zero divisor counts as `+0.0`. -/
def Double.div : Double → Double → Double
  | .finite a, .finite b =>
    if b = 0 then (if a = 0 then .nan else .infinite (decide (a < 0)))
    else Double.ofRat (a / b)
  | .finite _, .infinite _ => .finite 0
  | .infinite s, .finite b => .infinite (xor s (decide (b < 0)))
  | .infinite _, .infinite _ => .nan
  | .nan, _ => .nan
  | _, .nan => .nan

/-- The fields of `struct timespec`; both are 64-bit `long`. -/
structure timespec where
  tv_sec : Int
  tv_nsec : Int
deriving DecidableEq

/-- The macro `BILLION`, `(1000*1000*1000)`. -/
def BILLION : Int := 1000 * 1000 * 1000

/-- The macro `NTRIALS`. -/
def NTRIALS : Nat := 3000

/-- The macro `NITER`. -/
def NITER : Nat := 1000

/-- The macro `NSDELTA(a,b)`,
`(b).tv_nsec-(a).tv_nsec + BILLION*((b).tv_sec-(a).tv_sec)`, in 64-bit `long`
arithmetic. -/
def NSDELTA (a b : timespec) : Int :=
  toInt64 (toInt64 (b.tv_nsec - a.tv_nsec)
    + toInt64 (BILLION * toInt64 (b.tv_sec - a.tv_sec)))

/-- The nanoseconds a timestamp stands for, as an unbounded integer. -/
def timespec.nanos (t : timespec) : Int := t.tv_sec * 1000000000 + t.tv_nsec

/-- The value `ft` stores through `result`, line 137:
`NSDELTA(start,end)/(double)NITER/2.0`. -/
def ft_result (start stop : timespec) : Double :=
  Double.div (Double.div (Double.ofInt (NSDELTA start stop)) (Double.ofInt NITER))
    (Double.finite 2)

/-- A value fits a 64-bit `long`. -/
def InRange64 (z : Int) : Prop := -9223372036854775808 ≤ z ∧ z ≤ 9223372036854775807

/-- No intermediate result of `NSDELTA(a,b)` leaves the range of `long`. -/
def NSDELTA_defined (a b : timespec) : Prop :=
  InRange64 (b.tv_nsec - a.tv_nsec) ∧ InRange64 (b.tv_sec - a.tv_sec) ∧
  InRange64 (BILLION * (b.tv_sec - a.tv_sec)) ∧
  InRange64 (b.tv_nsec - a.tv_nsec + BILLION * (b.tv_sec - a.tv_sec))

/-- The three roundings of line 137 on an elapsed count `z` that is already a
rational: conversion to `double`, division by `1000.0`, division by `2.0`. -/
def ftValue (z : ℚ) : ℚ := roundBinary64 (roundBinary64 (roundBinary64 z / 1000) / 2)

/-! ## The handoff protocol (lines 86-139) -/

/-- The two worker roles: `tf` is the Flipper, `ft` the Timer. -/
inductive Role where
  | flipper
  | timer
deriving DecidableEq

/-- What `atomic_compare_exchange_strong_explicit` leaves behind: whether it
succeeded, the atomic object, and the object `expected` points to. -/
structure CasResult where
  success : Bool
  obj : Bool
  expected : Bool
deriving DecidableEq

/-- The call `atomic_compare_exchange_strong_explicit(obj, expected, desired,
memory_order_relaxed, memory_order_relaxed)` on an atomic `bool`: if the object
equals `*expected` it becomes `desired`; otherwise `*expected` receives the
value of the object. -/
def atomic_compare_exchange_strong_explicit (obj expected desired : Bool) : CasResult :=
  if obj = expected then { success := true, obj := desired, expected := expected }
  else { success := false, obj := obj, expected := obj }

/-- Where a worker thread stands. `init`: at the first statement; `barrier`:
about to call `pthread_barrier_wait`; `asleep`: inside `pthread_cond_wait`;
`clock`: about to take the start timestamp (`ft` only); `loop`: inside the
`for` loop; `fin`: returned. -/
inductive Pc where
  | init
  | barrier
  | asleep
  | clock
  | loop
  | fin
deriving DecidableEq

/-- One successful write to `x`: who wrote, the value before, the value after. -/
structure Write where
  role : Role
  old : Bool
  new : Bool
deriving DecidableEq

/-- The state of one trial: the globals `x`, `barrier`, `i_c`, `j_c`, the two
threads with their locals (`core`, the loop counter `i`, `start`, `end`), the
cell `res` that `ft` writes through `result`, the number of `clock_gettime`
calls the process has made, and the history of successful writes to `x`. -/
structure Trial where
  x : Bool
  barrier : pthread_barrier_t
  i_c : Int
  j_c : Int
  fpc : Pc
  tpc : Pc
  fcore : Int
  tcore : Int
  fwoken : Bool
  twoken : Bool
  fi : Nat
  ti : Nat
  tstart : timespec
  tend : timespec
  res : Option Double
  clockCalls : Nat
  writes : List Write

/-- One step of `tf` (lines 104-113), with `n` the bound of its loop.  The
compound literal `(bool[]){true}` is created anew by every evaluation of the
loop condition of `compare_exchange`, so every attempt expects `true`; what a
failed attempt wrote back into it is gone with it. -/
def Trial.stepFlipper (n : Nat) (s : Trial) : Trial :=
  match s.fpc with
  | .init => { s with fcore := s.i_c, fpc := .barrier }
  | .barrier =>
    let r := pthread_barrier_wait s.barrier
    if r.2 = 1 then
      { s with barrier := r.1, fpc := .loop,
               twoken := s.twoken || decide (s.tpc = .asleep) }
    else { s with barrier := r.1, fpc := .asleep }
  | .asleep => if s.fwoken then { s with fwoken := false, fpc := .loop } else s
  | .clock => s
  | .loop =>
    if s.fi < n then
      let r := atomic_compare_exchange_strong_explicit s.x true false
      if r.success then
        { s with x := r.obj, fi := s.fi + 1,
                 writes := s.writes ++ [{ role := .flipper, old := s.x, new := r.obj }] }
      else s
    else { s with fpc := .fin }
  | .fin => s

/-- One step of `ft` (lines 117-139), with `n` the bound of its loop and
`clock k` the timestamp the `k`-th `clock_gettime` call of the process delivers.
Every attempt expects `false`. -/
def Trial.stepTimer (clock : Nat → timespec) (n : Nat) (s : Trial) : Trial :=
  match s.tpc with
  | .init => { s with tcore := s.j_c, tpc := .barrier }
  | .barrier =>
    let r := pthread_barrier_wait s.barrier
    if r.2 = 1 then
      { s with barrier := r.1, tpc := .clock,
               fwoken := s.fwoken || decide (s.fpc = .asleep) }
    else { s with barrier := r.1, tpc := .asleep }
  | .asleep => if s.twoken then { s with twoken := false, tpc := .clock } else s
  | .clock =>
    { s with tstart := clock s.clockCalls, clockCalls := s.clockCalls + 1, tpc := .loop }
  | .loop =>
    if s.ti < n then
      let r := atomic_compare_exchange_strong_explicit s.x false true
      if r.success then
        { s with x := r.obj, ti := s.ti + 1,
                 writes := s.writes ++ [{ role := .timer, old := s.x, new := r.obj }] }
      else s
    else
      { s with tend := clock s.clockCalls, clockCalls := s.clockCalls + 1,
               res := some (ft_result s.tstart (clock s.clockCalls)), tpc := .fin }
  | .fin => s

/-- One step of the trial: the thread named by the scheduler moves. -/
def Trial.step (clock : Nat → timespec) (n : Nat) (s : Trial) : Role → Trial
  | .flipper => s.stepFlipper n
  | .timer => s.stepTimer clock n

/-- The trial after the interleaving `sched`. -/
def Trial.run (clock : Nat → timespec) (n : Nat) (s : Trial) (sched : List Role) : Trial :=
  sched.foldl (Trial.step clock n) s

/-- The globals main hands from one trial to the next. -/
structure Globals where
  x : Bool
  barrier : pthread_barrier_t
  i_c : Int
  j_c : Int
  clockCalls : Nat
deriving DecidableEq

/-- The trial right after the two `pthread_create` calls: both threads at their
first statement, `res` not yet written. -/
def Trial.start (g : Globals) : Trial :=
  { x := g.x, barrier := g.barrier, i_c := g.i_c, j_c := g.j_c,
    fpc := .init, tpc := .init, fcore := 0, tcore := 0,
    fwoken := false, twoken := false, fi := 0, ti := 0,
    tstart := ⟨0, 0⟩, tend := ⟨0, 0⟩, res := none,
    clockCalls := g.clockCalls, writes := [] }

/-- Both threads have returned, so both `pthread_join` calls return. -/
def Trial.joined (s : Trial) : Bool := decide (s.fpc = .fin) && decide (s.tpc = .fin)

/-- The first `k` writes of the strict alternation that begins with the
Flipper's `true → false`. -/
def altWrites : Nat → List Write
  | 0 => []
  | k + 1 =>
    altWrites k ++
      [if k % 2 = 0 then { role := .flipper, old := true, new := false }
       else { role := .timer, old := false, new := true }]

/-- The interleaving in which the threads take turns, Flipper first, for
`k` rounds. -/
def roundRobin : Nat → List Role
  | 0 => []
  | k + 1 => Role.flipper :: Role.timer :: roundRobin k

/-- Every interleaving in which both threads of a trial return, whatever the
clock and the core assignment: the assumption that the operating system keeps
scheduling both workers. -/
def Complete (n : Nat) (sched : List Role) : Prop :=
  ∀ (clock : Nat → timespec) (g : Globals), g.x = true → g.barrier = barrier2 →
    ((Trial.start g).run clock n sched).joined = true

/-! ## The sweep (`main`, lines 141-187) -/

/-- What the program cannot decide: the timestamp the `k`-th `clock_gettime`
call delivers, and the interleaving of the two threads of the `k`-th trial. -/
structure World where
  clock : Nat → timespec
  sched : Nat → List Role

/-- One output line: the arguments of `printf("%d,%d,%g\n", ...)`. -/
structure Line where
  i : Int
  j : Int
  value : Double
deriving DecidableEq

/-- What is recorded about a trial when its threads are joined: the globals
`i_c`, `j_c`, the cores the two threads asked to be pinned to, the value of `x`
when the threads were created, and the value `ft` stored in `res`. -/
structure TrialRecord where
  i_c : Int
  j_c : Int
  fcore : Int
  tcore : Int
  xAtStart : Bool
  res : Double
deriving DecidableEq

/-- The state of the process inside `main`: the globals, the array `result`,
the lines printed so far, the number of trials run and their records. -/
structure Proc where
  g : Globals
  result : Nat → Nat → Double
  out : List Line
  trialNo : Nat
  log : List TrialRecord

/-- Assignment to one cell of `result`. -/
def setCell (r : Nat → Nat → Double) (i j : Nat) (v : Double) : Nat → Nat → Double :=
  fun a b => if a = i ∧ b = j then v else r a b

/-- The body of the trial loop, lines 175-182: create the two threads, join
them, add `res` to `result[i][j]`.  There is no next state when the threads do
not both return (the joins block for ever). -/
def oneTrial (w : World) (niter : Nat) (i j : Nat) (p : Proc) : Option Proc :=
  let s := (Trial.start p.g).run w.clock niter (w.sched p.trialNo)
  if s.joined then
    match s.res with
    | some r =>
      some { g := { x := s.x, barrier := s.barrier, i_c := s.i_c, j_c := s.j_c,
                    clockCalls := s.clockCalls },
             result := setCell p.result i j (Double.add (p.result i j) r),
             out := p.out,
             trialNo := p.trialNo + 1,
             log := p.log ++ [{ i_c := s.i_c, j_c := s.j_c, fcore := s.fcore,
                                tcore := s.tcore, xAtStart := p.g.x, res := r }] }
    | none => none
  else none

/-- The loop `for (int k = 0; k < n; ++k) body`. -/
def forRange (n : Nat) (body : Nat → Proc → Option Proc) (p : Proc) : Option Proc :=
  (List.range n).foldlM (fun q k => body k q) p

/-- The body of the two nested loops, lines 165-185, for one `(i, j)`. -/
def pairBody (w : World) (ntrials niter : Nat) (i j : Nat) (p : Proc) : Option Proc :=
  if i = j then some p
  else
    (forRange ntrials (fun _ => oneTrial w niter i j)
        { p with g := { p.g with i_c := (i : Int), j_c := (j : Int) } }).map fun q =>
      { q with out := q.out ++
          [{ i := (i : Int), j := (j : Int),
             value := Double.div (q.result i j) (Double.ofInt (ntrials : Int)) }] }

/-- The two nested loops of `main` over `nprocs` cores. -/
def sweep (w : World) (nprocs ntrials niter : Nat) (p : Proc) : Option Proc :=
  forRange nprocs (fun i => forRange nprocs (fun j => pairBody w ntrials niter i j)) p

/-- The process when the sweep begins: `x = true`, `i_c = j_c = -1`, the
barrier initialised for 2 participants, `result` zeroed by `memset`. -/
def Proc.initial : Proc :=
  { g := { x := true, barrier := barrier2, i_c := -1, j_c := -1, clockCalls := 0 },
    result := fun _ _ => .finite 0,
    out := [],
    trialNo := 0,
    log := [] }

/-- The function `main`: `nprocs = 8`, `NTRIALS` trials a pair, `NITER`
handoffs a trial. -/
def main (w : World) : Option Proc := sweep w 8 NTRIALS NITER Proc.initial

/-- The pairs `(i, j)` with `j ≠ i` of row `i`, `j` ascending below `m`. -/
def rowPairs (i m : Nat) : List (Nat × Nat) :=
  ((List.range m).filter (fun j => decide (i ≠ j))).map (fun j => (i, j))

/-- All ordered pairs of distinct indices below `n`, in lexicographic order. -/
def pairsOf (n : Nat) : List (Nat × Nat) :=
  (List.range n).flatMap (fun i => rowPairs i n)

/-- The value the `t`-th trial of the process stores in `res`. -/
def trialResult (w : World) (t : Nat) : Double :=
  ft_result (w.clock (2 * t)) (w.clock (2 * t + 1))

/-- The `double` sum `((init + r_0) + r_1) + ...` of the results of the `m`
trials that begin with trial `t0`, added one after the other to `init`. -/
def accTrials (w : World) (t0 m : Nat) (init : Double) : Double :=
  (List.range m).foldl (fun acc t => Double.add acc (trialResult w (t0 + t))) init

/-- The `double` sum `((0 + r_0) + r_1) + ...` of the results of the `m` trials
that begin with trial `t0`. -/
def sumTrials (w : World) (t0 m : Nat) : Double := accTrials w t0 m (.finite 0)

/-- The line printed for the `k`-th pair `(i, j)`. -/
def pairLine (w : World) (ntrials : Nat) (k : Nat) (ij : Nat × Nat) : Line :=
  { i := (ij.1 : Int), j := (ij.2 : Int),
    value := Double.div (sumTrials w (k * ntrials) ntrials) (Double.ofInt (ntrials : Int)) }

/-- The records of the trials of the `k`-th pair `(i, j)`. -/
def pairRecords (w : World) (ntrials : Nat) (k : Nat) (ij : Nat × Nat) : List TrialRecord :=
  (List.range ntrials).map fun t =>
    { i_c := (ij.1 : Int), j_c := (ij.2 : Int), fcore := (ij.1 : Int), tcore := (ij.2 : Int),
      xAtStart := true, res := trialResult w (k * ntrials + t) }

/-- The lines printed for the pairs of `l`, the first of which is the `k`-th
pair of the sweep. -/
def linesFrom (w : World) (ntrials : Nat) : Nat → List (Nat × Nat) → List Line
  | _, [] => []
  | k, ij :: rest => pairLine w ntrials k ij :: linesFrom w ntrials (k + 1) rest

/-- The records of the trials of the pairs of `l`, the first of which is the
`k`-th pair of the sweep. -/
def recordsFrom (w : World) (ntrials : Nat) : Nat → List (Nat × Nat) → List TrialRecord
  | _, [] => []
  | k, ij :: rest => pairRecords w ntrials k ij ++ recordsFrom w ntrials (k + 1) rest

/-- The pairs processed when the sweep over `n` cores stands before `(i, j)`:
the full rows below `i`, then row `i` up to column `j`. -/
def pairsBefore (n i j : Nat) : List (Nat × Nat) :=
  (List.range i).flatMap (fun a => rowPairs a n) ++ rowPairs i j

/-- Between trials: `x` is true, the barrier is empty, and two clock readings
have been taken per trial. -/
structure ProcOK (p : Proc) : Prop where
  x_true : p.g.x = true
  barrier_ok : p.g.barrier = barrier2
  clock_eq : p.g.clockCalls = 2 * p.trialNo

/-- The state of the process after the pairs `l` have been processed. -/
structure SweepInv (w : World) (ntrials : Nat) (l : List (Nat × Nat)) (p : Proc) : Prop where
  ok : ProcOK p
  trialNo_eq : p.trialNo = l.length * ntrials
  out_eq : p.out = linesFrom w ntrials 0 l
  log_eq : p.log = recordsFrom w ntrials 0 l
  cell_untouched : ∀ a b, (a, b) ∉ l → p.result a b = .finite 0
  cell_done : ∀ k a b, l[k]? = some (a, b) →
    p.result a b = sumTrials w (k * ntrials) ntrials

/-- Lexicographic order on index pairs. -/
def lexLt (p q : Nat × Nat) : Prop := p.1 < q.1 ∨ (p.1 = q.1 ∧ p.2 < q.2)

/-- The world in which the clock advances by `delta` nanoseconds per call and
every trial runs its threads in turns. -/
def steadyWorld (delta : Nat) : World :=
  { clock := fun k => { tv_sec := 0, tv_nsec := (delta * k : Nat) },
    sched := fun _ => roundRobin (NITER + 4) }

/-- A thread has arrived at the barrier. -/
def Pc.arrived : Pc → Bool
  | .init => false
  | .barrier => false
  | _ => true

/-- A thread has not entered its loop yet. -/
def Pc.beforeLoop : Pc → Bool
  | .loop => false
  | .fin => false
  | _ => true

/-- What holds in every state of a trial that started from the globals `g`
with `x = true`, under the clock `clock` and with loop bound `n`. -/
structure TrialInv (clock : Nat → timespec) (n : Nat) (g : Globals) (s : Trial) : Prop where
  i_c_eq : s.i_c = g.i_c
  j_c_eq : s.j_c = g.j_c
  ti_le_fi : s.ti ≤ s.fi
  fi_le_succ : s.fi ≤ s.ti + 1
  x_iff : s.x = true ↔ s.fi = s.ti
  fi_le : s.fi ≤ n
  ti_le : s.ti ≤ n
  writes_eq : s.writes = altWrites (s.fi + s.ti)
  f_not_clock : s.fpc ≠ .clock
  f_before : s.fpc.beforeLoop = true → s.fi = 0
  f_fin : s.fpc = .fin → s.fi = n
  f_core : s.fpc ≠ .init → s.fcore = g.i_c
  t_before : s.tpc.beforeLoop = true →
    s.ti = 0 ∧ s.clockCalls = g.clockCalls ∧ s.res = none
  t_loop : s.tpc = .loop →
    s.clockCalls = g.clockCalls + 1 ∧ s.tstart = clock g.clockCalls ∧ s.res = none
  t_fin : s.tpc = .fin →
    s.ti = n ∧ s.clockCalls = g.clockCalls + 2 ∧
    s.res = some (ft_result (clock g.clockCalls) (clock (g.clockCalls + 1)))
  t_core : s.tpc ≠ .init → s.tcore = g.j_c

/-- What holds of the barrier in every state of a trial that started with the
empty two-party barrier: its count is the number of arrived threads modulo 2. -/
structure TrialBarrierInv (s : Trial) : Prop where
  f_not_clock : s.fpc ≠ .clock
  trip : s.barrier.tripCount = 2
  count_eq : s.barrier.count
    = (((if s.fpc.arrived then 1 else 0) + (if s.tpc.arrived then 1 else 0) : Nat) % 2 : Nat)
  f_wake : s.fpc = .asleep → s.tpc.arrived = true → s.fwoken = true
  t_wake : s.tpc = .asleep → s.fpc.arrived = true → s.twoken = true
  f_woken : s.fwoken = true → s.tpc.arrived = true
  t_woken : s.twoken = true → s.fpc.arrived = true
  f_passed : s.fpc = .loop ∨ s.fpc = .fin → s.tpc.arrived = true
  t_passed : s.tpc = .clock ∨ s.tpc = .loop ∨ s.tpc = .fin → s.fpc.arrived = true

/-- How many statements of its own a thread at this point still has before it
has returned, not counting repetitions of its loop. -/
def Pc.rank : Pc → Nat
  | .init => 5
  | .barrier => 4
  | .asleep => 3
  | .clock => 2
  | .loop => 1
  | .fin => 0

/-- The work left in a trial: the ranks of the two threads and the handoffs
each still has to complete. -/
def Trial.work (n : Nat) (s : Trial) : Nat :=
  s.fpc.rank + s.tpc.rank + (n - s.fi) + (n - s.ti)

theorem toInt32_of_range (z : Int) (h0 : -2147483648 ≤ z) (h1 : z ≤ 2147483647) :
    toInt32 z = z := by
  unfold toInt32; omega

theorem barrier2_eq : barrier2 = { count := 0, tripCount := 2 } := by decide

theorem succ_mod_cases (k n : Nat) (hn : 0 < n) :
    (k + 1) % n = if k % n + 1 = n then 0 else k % n + 1 := by
  have hlt := Nat.mod_lt k hn
  have hk := Nat.div_add_mod k n
  split_ifs with h
  · have e : k + 1 = n * (k / n + 1) := by rw [Nat.mul_add, Nat.mul_one]; omega
    rw [e, Nat.mul_mod_right]
  · have e : k + 1 = n * (k / n) + (k % n + 1) := by omega
    rw [e, Nat.mul_add_mod, Nat.mod_eq_of_lt (by omega)]

/-- After `k` arrivals a barrier for `n` participants (`0 < n ≤ INT_MAX`) that
started empty holds `k mod n` arrivals. -/
theorem barrierAfter_eq (n : Nat) (hn : 0 < n) (hmax : n ≤ INT_MAX) (k : Nat) :
    barrierAfter { count := 0, tripCount := (n : Int) } k
      = { count := ((k % n : Nat) : Int), tripCount := (n : Int) } := by
  induction k with
  | zero => simp [barrierAfter]
  | succ k ih =>
    have hlt := Nat.mod_lt k hn
    have hc := succ_mod_cases k n hn
    unfold INT_MAX at hmax
    simp only [barrierAfter, ih, pthread_barrier_wait]
    rw [toInt32_of_range _ (by omega) (by omega)]
    by_cases h : k % n + 1 = n
    · rw [if_pos h] at hc
      rw [if_pos (by omega), hc]; rfl
    · rw [if_neg h] at hc
      rw [if_neg (by omega), hc]; push_cast; rfl

/-- The call after `k` earlier arrivals is the releaser exactly when `k + 1` is
a multiple of `n`. -/
theorem waitResult_eq (n : Nat) (hn : 0 < n) (hmax : n ≤ INT_MAX) (k : Nat) :
    waitResult { count := 0, tripCount := (n : Int) } k
      = if (k + 1) % n = 0 then 1 else 0 := by
  have hlt := Nat.mod_lt k hn
  have hc := succ_mod_cases k n hn
  unfold INT_MAX at hmax
  simp only [waitResult, barrierAfter_eq n hn hmax, pthread_barrier_wait]
  rw [toInt32_of_range _ (by omega) (by omega)]
  by_cases h : k % n + 1 = n
  · rw [if_pos h] at hc
    rw [if_pos (by omega), if_pos hc]
  · rw [if_neg h] at hc
    rw [if_neg (by omega), if_neg (by omega)]

theorem init_in_range (b0 : pthread_barrier_t) (n : Nat) (e : Int)
    (hn : 0 < n) (hmax : n ≤ INT_MAX) :
    pthread_barrier_init b0 n 0 0 e
      = { ret := 0, errno := e, barrier := { count := 0, tripCount := (n : Int) } } := by
  unfold INT_MAX at hmax
  unfold pthread_barrier_init
  rw [if_neg (by omega), if_neg (by decide), if_neg (by decide),
    toInt32_of_range _ (by omega) (by omega)]

theorem waitResult_add_period (n : Nat) (hn : 0 < n) (hmax : n ≤ INT_MAX) (r k : Nat) :
    waitResult { count := 0, tripCount := (n : Int) } (r * n + k)
      = waitResult { count := 0, tripCount := (n : Int) } k := by
  rw [waitResult_eq n hn hmax, waitResult_eq n hn hmax]
  have e : (r * n + k + 1) % n = (k + 1) % n := by
    rw [show r * n + k + 1 = (k + 1) + n * r by ring, Nat.add_mul_mod_self_left]
  rw [e]

theorem waitResults_rounds (n : Nat) (hn : 0 < n) (hmax : n ≤ INT_MAX) (r : Nat) :
    waitResults { count := 0, tripCount := (n : Int) } (r * n)
      = (List.replicate r (waitResults { count := 0, tripCount := (n : Int) } n)).flatten := by
  induction r with
  | zero => simp [waitResults]
  | succ r ih =>
    have e : (r + 1) * n = r * n + n := by ring
    rw [List.replicate_succ', List.flatten_append, ← ih, e]
    simp only [waitResults, List.range_add, List.map_append, List.map_map, List.flatten_cons,
      List.flatten_nil, List.append_nil]
    congr 1
    apply List.map_congr_left
    intro i _
    exact waitResult_add_period n hn hmax r i

/-- With a participant count that fits an `int` the shim behaves as the barrier
contract says: a zero count is rejected with `EINVAL` and the barrier is left as
it was; a count `0 < n ≤ INT_MAX` gives `count = 0`, `tripCount = n`; the `k`-th
arrival is the releaser (result `1`) exactly when `n` divides `k` and otherwise
waits (result `0`); and `r` rounds on one barrier give the results of `r` fresh
barriers used for one round each. -/
theorem barrier_in_range (b0 : pthread_barrier_t) (e m c : Int) (n : Nat)
    (hn : 0 < n) (hmax : n ≤ INT_MAX) :
    pthread_barrier_init b0 0 m c e = { ret := -1, errno := EINVAL, barrier := b0 } ∧
    pthread_barrier_init b0 n 0 0 e
      = { ret := 0, errno := e, barrier := { count := 0, tripCount := (n : Int) } } ∧
    (∀ k : Nat, 1 ≤ k →
      (waitResult (pthread_barrier_init b0 n 0 0 e).barrier (k - 1) = 1 ↔ n ∣ k) ∧
      (¬ n ∣ k → waitResult (pthread_barrier_init b0 n 0 0 e).barrier (k - 1) = 0) ∧
      (barrierAfter (pthread_barrier_init b0 n 0 0 e).barrier k).count = ((k % n : Nat) : Int)) ∧
    (∀ (b1 : pthread_barrier_t) (r : Nat),
      waitResults (pthread_barrier_init b0 n 0 0 e).barrier (r * n)
        = (List.replicate r (waitResults (pthread_barrier_init b1 n 0 0 e).barrier n)).flatten) := by
  refine ⟨by simp [pthread_barrier_init], init_in_range b0 n e hn hmax, ?_, ?_⟩
  · intro k hk
    rw [init_in_range b0 n e hn hmax]
    simp only [waitResult_eq n hn hmax, barrierAfter_eq n hn hmax]
    have hk1 : k - 1 + 1 = k := by omega
    rw [hk1, Nat.dvd_iff_mod_eq_zero]
    refine ⟨?_, ?_, trivial⟩
    · by_cases h : k % n = 0 <;> simp [h]
    · intro h; simp [h]
  · intro b1 r
    rw [init_in_range b0 n e hn hmax, init_in_range b1 n e hn hmax]
    exact waitResults_rounds n hn hmax r

theorem BarrierInv_init : BarrierInv (BarrierSys.init barrier2) := by
  simp [BarrierInv, BarrierSys.init, barrier2_eq]

theorem BarrierInv_step (s : BarrierSys) (e : BarrierEvent) (h : BarrierInv s)
    (he : e ≠ .spurious) : BarrierInv (s.step e) := by
  obtain ⟨hb, hbl, hr⟩ := h
  cases e with
  | arrive =>
    have hw : pthread_barrier_wait s.barrier =
        if s.arrived % 2 = 1 then (⟨0, 2⟩, 1) else (⟨1, 2⟩, 0) := by
      rw [hb]
      simp only [pthread_barrier_wait]
      rw [toInt32_of_range _ (by omega) (by omega)]
      by_cases h1 : s.arrived % 2 = 1
      · rw [if_pos h1, if_pos (by omega)]
      · have h0 : s.arrived % 2 = 0 := by omega
        rw [if_neg h1, if_neg (by omega), h0]; rfl
    simp only [BarrierSys.step, hw]
    by_cases h1 : s.arrived % 2 = 1
    · simp only [if_pos h1, if_true]
      refine ⟨?_, ?_, ?_⟩
      · have : (s.arrived + 1) % 2 = 0 := by omega
        simp [this]
      · simp only; omega
      · simp only; omega
    · have h0 : s.arrived % 2 = 0 := by omega
      simp only [if_neg h1]
      rw [if_neg (by decide)]
      refine ⟨?_, ?_, ?_⟩
      · have : (s.arrived + 1) % 2 = 1 := by omega
        simp [this]
      · simp only; omega
      · simp only; omega
  | wake =>
    simp only [BarrierSys.step]
    split_ifs with hwk
    · exact ⟨hb, hbl, by simp only; omega⟩
    · exact ⟨hb, hbl, hr⟩
  | spurious => exact absurd rfl he

theorem BarrierInv_run (es : List BarrierEvent) (s : BarrierSys) (h : BarrierInv s)
    (hes : ∀ e ∈ es, e ≠ .spurious) : BarrierInv (s.run es) := by
  induction es generalizing s with
  | nil => exact h
  | cons e es ih =>
    exact ih (s.step e) (BarrierInv_step s e h (hes e (List.mem_cons_self _ _)))
      (fun e' he' => hes e' (List.mem_cons_of_mem _ he'))

/-- As long as no `pthread_cond_wait` returns without a broadcast, the two-party
barrier of the program releases pairs only: the calls that have returned number
at most twice the completed pairs of arrivals, the callers asleep are the
`arrived mod 2` of the unfinished pair, and a caller that arrived alone has not
returned. -/
theorem barrier_releases_only_pairs_without_spurious (es : List BarrierEvent)
    (hes : ∀ e ∈ es, e ≠ .spurious) :
    ((BarrierSys.init barrier2).run es).returned
        ≤ 2 * (((BarrierSys.init barrier2).run es).arrived / 2) ∧
    ((BarrierSys.init barrier2).run es).blocked
        = ((BarrierSys.init barrier2).run es).arrived % 2 ∧
    (((BarrierSys.init barrier2).run es).arrived < 2 →
      ((BarrierSys.init barrier2).run es).returned = 0) ∧
    (0 < ((BarrierSys.init barrier2).run es).returned →
      2 ≤ ((BarrierSys.init barrier2).run es).arrived) := by
  obtain ⟨_, hbl, hr⟩ := BarrierInv_run es _ BarrierInv_init hes
  refine ⟨by omega, hbl, ?_, ?_⟩
  · intro h; omega
  · intro h; omega

/-- Claim C7, at the participant count `2147483648` (a valid `unsigned int`):
`pthread_barrier_init` reports success (returns `0`), yet the barrier it leaves
has `tripCount = -2147483648`, not the participant count, because the count is
stored in an `int` field without a range check. -/
theorem C7_init_stores_negative_tripCount (b0 : pthread_barrier_t) (e : Int) :
    (pthread_barrier_init b0 2147483648 0 0 e).ret = 0 ∧
    (pthread_barrier_init b0 2147483648 0 0 e).barrier.count = 0 ∧
    (pthread_barrier_init b0 2147483648 0 0 e).barrier.tripCount = -2147483648 ∧
    (pthread_barrier_init b0 2147483648 0 0 e).barrier.tripCount ≠ ((2147483648 : Nat) : Int) := by
  simp [pthread_barrier_init, toInt32]

/-- Claim C5, at the participant count `2147483648` (a valid `unsigned int`
with which `pthread_barrier_init` succeeds): every call of
`pthread_barrier_wait`, the first included, takes the releaser branch and
returns `1`, although `1` is not a multiple of `2147483648`. -/
theorem C5_every_call_releases_for_large_count (b0 : pthread_barrier_t) (e : Int) (k : Nat) :
    (pthread_barrier_init b0 2147483648 0 0 e).ret = 0 ∧
    waitResult (pthread_barrier_init b0 2147483648 0 0 e).barrier k = 1 ∧
    (barrierAfter (pthread_barrier_init b0 2147483648 0 0 e).barrier k).count = 0 ∧
    ¬ (2147483648 ∣ 1) := by
  have hb : (pthread_barrier_init b0 2147483648 0 0 e).barrier
      = { count := 0, tripCount := -2147483648 } := by
    simp [pthread_barrier_init, toInt32]
  have hA : ∀ k, barrierAfter { count := 0, tripCount := -2147483648 } k
      = { count := 0, tripCount := -2147483648 } := by
    intro k
    induction k with
    | zero => rfl
    | succ k ih => rw [barrierAfter, ih]; decide
  refine ⟨by simp [pthread_barrier_init], ?_, ?_, by decide⟩
  · rw [hb, waitResult, hA]; decide
  · rw [hb, hA]

/-- Claim C6, for a single caller whose `pthread_cond_wait` returns without a
broadcast: after one arrival at the two-party barrier of the program the caller
is asleep and has not returned; one spurious wake-up later the call has
returned, although it is the only call that has arrived and no release has
happened (the first arrival is on the waiting branch, result `0`, and the
barrier still holds `count = 1`).  So a call has returned before two calls
have arrived. -/
theorem C6_lone_caller_returns_after_spurious_wakeup :
    ((BarrierSys.init barrier2).run [.arrive]).blocked = 1 ∧
    ((BarrierSys.init barrier2).run [.arrive]).returned = 0 ∧
    waitResult barrier2 0 = 0 ∧
    ((BarrierSys.init barrier2).run [.arrive, .spurious]).arrived = 1 ∧
    ((BarrierSys.init barrier2).run [.arrive, .spurious]).returned = 1 ∧
    ((BarrierSys.init barrier2).run [.arrive, .spurious]).blocked = 0 ∧
    ((BarrierSys.init barrier2).run [.arrive, .spurious]).woken = 0 ∧
    ((BarrierSys.init barrier2).run [.arrive, .spurious]).barrier
      = { count := 1, tripCount := 2 } ∧
    ¬ (((BarrierSys.init barrier2).run [.arrive, .spurious]).returned
        ≤ 2 * (((BarrierSys.init barrier2).run [.arrive, .spurious]).arrived / 2)) := by
  decide

/-! ## Rounding: proofs -/

theorem roundHalfEven_sub_le (s : ℚ) : |(roundHalfEven s : ℚ) - s| ≤ 1 / 2 := by
  have h1 := Int.floor_le s
  have h2 := Int.lt_floor_add_one s
  unfold roundHalfEven
  split_ifs with a b c
  · rw [abs_le]; constructor <;> linarith
  · rw [abs_le]; push_cast; constructor <;> linarith
  · rw [abs_le]; constructor <;> linarith
  · rw [abs_le]; push_cast; constructor <;> linarith

theorem roundHalfEven_intCast (n : ℤ) : roundHalfEven (n : ℚ) = n := by
  unfold roundHalfEven
  rw [Int.floor_intCast, sub_self, if_pos (by norm_num)]

theorem roundHalfEven_le_of_le (s : ℚ) (n : ℤ) (h : s ≤ n) : roundHalfEven s ≤ n := by
  have h1 := Int.floor_le s
  have h2 := Int.lt_floor_add_one s
  have hf : ⌊s⌋ ≤ n := by
    have : ⌊s⌋ < n + 1 := Int.floor_lt.mpr (by push_cast; linarith)
    omega
  unfold roundHalfEven
  split_ifs with a b c
  · exact hf
  · by_contra hc
    have : n = ⌊s⌋ := by omega
    rw [this] at h
    linarith
  · exact hf
  · by_contra hc
    have : n = ⌊s⌋ := by omega
    rw [this] at h
    have : s - ⌊s⌋ = 1 / 2 := le_antisymm (not_lt.mp b) (not_lt.mp a)
    linarith

theorem roundHalfEven_nonneg (s : ℚ) (h : 0 ≤ s) : 0 ≤ roundHalfEven s := by
  have hf : 0 ≤ ⌊s⌋ := Int.floor_nonneg.mpr h
  unfold roundHalfEven
  split_ifs <;> omega

theorem roundHalfEven_nonpos (s : ℚ) (h : s ≤ 0) : roundHalfEven s ≤ 0 := by
  have := roundHalfEven_le_of_le s 0 (by simpa using h)
  exact this

theorem two_zpow_pos (e : ℤ) : (0 : ℚ) < (2 : ℚ) ^ e := zpow_pos (by norm_num) e

theorem roundBinary64_zero : roundBinary64 0 = 0 := by
  simp [roundBinary64, roundHalfEven]

theorem roundBinary64_nonneg (q : ℚ) (h : 0 ≤ q) : 0 ≤ roundBinary64 q := by
  unfold roundBinary64
  have hp := two_zpow_pos (ulpExp q)
  have : 0 ≤ roundHalfEven (q / (2 : ℚ) ^ ulpExp q) :=
    roundHalfEven_nonneg _ (div_nonneg h hp.le)
  have : (0 : ℚ) ≤ (roundHalfEven (q / (2 : ℚ) ^ ulpExp q) : ℚ) := by exact_mod_cast this
  positivity

theorem roundBinary64_nonpos (q : ℚ) (h : q ≤ 0) : roundBinary64 q ≤ 0 := by
  unfold roundBinary64
  have hp := two_zpow_pos (ulpExp q)
  have : roundHalfEven (q / (2 : ℚ) ^ ulpExp q) ≤ 0 :=
    roundHalfEven_nonpos _ (div_nonpos_of_nonpos_of_nonneg h hp.le)
  have : (roundHalfEven (q / (2 : ℚ) ^ ulpExp q) : ℚ) ≤ 0 := by exact_mod_cast this
  exact mul_nonpos_of_nonpos_of_nonneg this hp.le

/-- The logarithm bounds that define the binade of a positive rational. -/
theorem log_bounds (q : ℚ) (h : 0 < q) :
    (2 : ℚ) ^ Int.log 2 q ≤ q ∧ q < (2 : ℚ) ^ (Int.log 2 q + 1) := by
  have a := Int.zpow_log_le_self (b := 2) (r := q) (by norm_num) h
  have b := Int.lt_zpow_succ_log_self (b := 2) (by norm_num) q
  simpa using And.intro a b

theorem log_lt_of_lt_zpow (q : ℚ) (h : 0 < q) (k : ℤ) (hk : q < (2 : ℚ) ^ k) :
    Int.log 2 q < k := by
  have := (Int.lt_zpow_iff_log_lt (b := 2) (by norm_num) h (x := k)).mp (by simpa using hk)
  exact this

theorem le_log_of_zpow_le (q : ℚ) (h : 0 < q) (k : ℤ) (hk : (2 : ℚ) ^ k ≤ q) :
    k ≤ Int.log 2 q := by
  have := (Int.zpow_le_iff_le_log (b := 2) (by norm_num) h (x := k)).mp (by simpa using hk)
  exact this

theorem ulpExp_le_of_abs_lt (q : ℚ) (hq : q ≠ 0) (k : ℤ) (hk : -1074 ≤ k)
    (h : |q| < (2 : ℚ) ^ (53 + k)) : ulpExp q ≤ k := by
  have hpos : 0 < |q| := abs_pos.mpr hq
  have := log_lt_of_lt_zpow |q| hpos _ h
  unfold ulpExp
  exact max_le (by omega) hk

/-- A number with at most 53 significant bits and exponent at least `-1074`
is delivered unchanged. -/
theorem roundBinary64_exact (m k : ℤ) (hm : |m| < 2 ^ 53) (hk : -1074 ≤ k) :
    roundBinary64 ((m : ℚ) * (2 : ℚ) ^ k) = (m : ℚ) * (2 : ℚ) ^ k := by
  by_cases hm0 : m = 0
  · subst hm0; simp [roundBinary64_zero]
  have hp := two_zpow_pos k
  have hq : (m : ℚ) * (2 : ℚ) ^ k ≠ 0 := by
    have : (m : ℚ) ≠ 0 := by exact_mod_cast hm0
    positivity
  have hlt : |(m : ℚ) * (2 : ℚ) ^ k| < (2 : ℚ) ^ (53 + k) := by
    rw [abs_mul, abs_of_pos hp, zpow_add₀ (by norm_num : (2 : ℚ) ≠ 0)]
    have : |(m : ℚ)| < (2 : ℚ) ^ (53 : ℤ) := by
      have h1 : ((|m| : ℤ) : ℚ) < ((2 ^ 53 : ℤ) : ℚ) := by exact_mod_cast hm
      rw [Int.cast_abs] at h1
      norm_num at h1 ⊢
      exact h1
    exact mul_lt_mul_of_pos_right this hp
  have he := ulpExp_le_of_abs_lt _ hq k hk hlt
  unfold roundBinary64
  generalize ulpExp ((m : ℚ) * (2 : ℚ) ^ k) = e at he
  obtain ⟨n, hn⟩ := Int.eq_ofNat_of_zero_le (show 0 ≤ k - e by omega)
  have hk' : k = e + (n : ℤ) := by omega
  have hpe := two_zpow_pos e
  have e1 : (m : ℚ) * (2 : ℚ) ^ k / (2 : ℚ) ^ e = ((m * 2 ^ n : ℤ) : ℚ) := by
    rw [hk', zpow_add₀ (by norm_num : (2 : ℚ) ≠ 0), zpow_natCast]
    push_cast
    field_simp
    ring
  rw [e1, roundHalfEven_intCast, hk', zpow_add₀ (by norm_num : (2 : ℚ) ≠ 0), zpow_natCast]
  push_cast
  ring

/-- Rounding does not step over a representable number above: if `0 ≤ q ≤ y`
and `y` has at most 53 significant bits, the rounded `q` is at most `y`. -/
theorem roundBinary64_le_of_le (q : ℚ) (m : ℕ) (k : ℤ) (hm : m < 2 ^ 53) (hk : -1074 ≤ k)
    (h0 : 0 ≤ q) (h : q ≤ (m : ℚ) * (2 : ℚ) ^ k) :
    roundBinary64 q ≤ (m : ℚ) * (2 : ℚ) ^ k := by
  rcases h0.eq_or_lt with hq0 | hqpos
  · subst hq0
    rw [roundBinary64_zero]
    have := two_zpow_pos k
    positivity
  have hp := two_zpow_pos k
  have hqne : q ≠ 0 := hqpos.ne'
  -- the exponent of `q` is at most `k`
  have he : ulpExp q ≤ k := by
    by_contra hc
    push_neg at hc
    have hlog : k < Int.log 2 |q| - 52 := by
      unfold ulpExp at hc
      rcases lt_max_iff.mp hc with h1 | h1
      · exact h1
      · omega
    have hb := (log_bounds |q| (abs_pos.mpr hqne)).1
    rw [abs_of_pos hqpos] at hb hlog
    have h53 : (m : ℚ) * (2 : ℚ) ^ k < (2 : ℚ) ^ (53 + k) := by
      rw [zpow_add₀ (by norm_num : (2 : ℚ) ≠ 0)]
      have : (m : ℚ) < (2 : ℚ) ^ (53 : ℤ) := by
        have h1 : ((m : ℕ) : ℚ) < ((2 ^ 53 : ℕ) : ℚ) := by exact_mod_cast hm
        norm_num at h1 ⊢
        exact h1
      exact mul_lt_mul_of_pos_right this hp
    have hle : (2 : ℚ) ^ (53 + k) ≤ (2 : ℚ) ^ Int.log 2 q :=
      zpow_le_zpow_right₀ (by norm_num) (by omega)
    linarith
  unfold roundBinary64
  generalize ulpExp q = e at he
  obtain ⟨n, hn⟩ := Int.eq_ofNat_of_zero_le (show 0 ≤ k - e by omega)
  have hk' : k = e + (n : ℤ) := by omega
  have hpe := two_zpow_pos e
  have hy : (m : ℚ) * (2 : ℚ) ^ k = ((m * 2 ^ n : ℕ) : ℤ) * (2 : ℚ) ^ e := by
    rw [hk', zpow_add₀ (by norm_num : (2 : ℚ) ≠ 0), zpow_natCast]
    push_cast
    ring
  rw [hy] at h ⊢
  have hs : q / (2 : ℚ) ^ e ≤ (((m * 2 ^ n : ℕ) : ℤ) : ℚ) := by
    rw [div_le_iff₀ hpe]; exact h
  have := roundHalfEven_le_of_le _ _ hs
  have : (roundHalfEven (q / (2 : ℚ) ^ e) : ℚ) ≤ (((m * 2 ^ n : ℕ) : ℤ) : ℚ) := by
    exact_mod_cast this
  exact mul_le_mul_of_nonneg_right this hpe.le

/-- In the normal range a rounding moves its argument by at most `2^-53` of its
magnitude. -/
theorem roundBinary64_rel_err (q : ℚ) (h : (2 : ℚ) ^ (-1022 : ℤ) ≤ |q|) :
    |roundBinary64 q - q| ≤ (2 : ℚ) ^ (-53 : ℤ) * |q| := by
  have hpos : 0 < |q| := lt_of_lt_of_le (two_zpow_pos _) h
  have hlog := le_log_of_zpow_le |q| hpos _ h
  have hb := (log_bounds |q| hpos).1
  have he : ulpExp q = Int.log 2 |q| - 52 := by
    unfold ulpExp; exact max_eq_left (by omega)
  unfold roundBinary64
  rw [he]
  generalize hedef : Int.log 2 |q| - 52 = e
  have hpe := two_zpow_pos e
  have h1 := roundHalfEven_sub_le (q / (2 : ℚ) ^ e)
  have e1 : (roundHalfEven (q / (2 : ℚ) ^ e) : ℚ) * (2 : ℚ) ^ e - q
      = ((roundHalfEven (q / (2 : ℚ) ^ e) : ℚ) - q / (2 : ℚ) ^ e) * (2 : ℚ) ^ e := by
    field_simp
  rw [e1, abs_mul, abs_of_pos hpe]
  have e2 : (2 : ℚ) ^ Int.log 2 |q| = (2 : ℚ) ^ (52 : ℤ) * (2 : ℚ) ^ e := by
    rw [← zpow_add₀ (by norm_num : (2 : ℚ) ≠ 0)]; congr 1; omega
  clear hedef
  have e3 : (2 : ℚ) ^ (-53 : ℤ) * (2 : ℚ) ^ (52 : ℤ) = 1 / 2 := by
    rw [← zpow_add₀ (by norm_num : (2 : ℚ) ≠ 0)]; norm_num
  calc |(roundHalfEven (q / (2 : ℚ) ^ e) : ℚ) - q / (2 : ℚ) ^ e| * (2 : ℚ) ^ e
      ≤ 1 / 2 * (2 : ℚ) ^ e := mul_le_mul_of_nonneg_right h1 hpe.le
    _ ≤ (2 : ℚ) ^ (-53 : ℤ) * ((2 : ℚ) ^ (52 : ℤ) * (2 : ℚ) ^ e) := by
        rw [← mul_assoc, e3]
    _ ≤ (2 : ℚ) ^ (-53 : ℤ) * |q| := by
        rw [← e2]
        exact mul_le_mul_of_nonneg_left hb (two_zpow_pos _).le

/-! ## Timing arithmetic: proofs -/

theorem toInt64_of_range (z : Int) (h : InRange64 z) : toInt64 z = z := by
  unfold InRange64 at h; unfold toInt64; omega

/-- Without overflow `NSDELTA` is the exact difference of the nanosecond counts. -/
theorem NSDELTA_exact (a b : timespec) (h : NSDELTA_defined a b) :
    NSDELTA a b = b.nanos - a.nanos := by
  obtain ⟨h1, h2, h3, h4⟩ := h
  unfold NSDELTA
  rw [toInt64_of_range _ h2, toInt64_of_range _ h3, toInt64_of_range _ h1,
    toInt64_of_range _ h4]
  unfold timespec.nanos BILLION
  ring

theorem roundHalfEven_neg (s : ℚ) : roundHalfEven (-s) = -roundHalfEven s := by
  have h1 := Int.floor_le s
  have h2 := Int.lt_floor_add_one s
  by_cases hint : (⌊s⌋ : ℚ) = s
  · rw [← hint, ← Int.cast_neg, roundHalfEven_intCast, roundHalfEven_intCast]
  · have hlt : (⌊s⌋ : ℚ) < s := lt_of_le_of_ne h1 hint
    have hf : ⌊-s⌋ = -⌊s⌋ - 1 := by
      rw [Int.floor_eq_iff]; push_cast; constructor <;> linarith
    unfold roundHalfEven
    rw [hf]
    push_cast
    by_cases a : s - ⌊s⌋ < 1 / 2
    · rw [if_pos a, if_neg (by linarith), if_pos (by linarith)]; ring
    · by_cases b : 1 / 2 < s - ⌊s⌋
      · rw [if_neg a, if_pos b, if_pos (by linarith)]; ring
      · rw [if_neg a, if_neg b, if_neg (by linarith), if_neg (by linarith)]
        by_cases c : ⌊s⌋ % 2 = 0
        · rw [if_pos c, if_neg (by omega)]; ring
        · rw [if_neg c, if_pos (by omega)]; ring

theorem ulpExp_neg (q : ℚ) : ulpExp (-q) = ulpExp q := by
  unfold ulpExp; rw [abs_neg]

theorem roundBinary64_neg (q : ℚ) : roundBinary64 (-q) = -roundBinary64 q := by
  unfold roundBinary64
  rw [ulpExp_neg, neg_div, roundHalfEven_neg]
  push_cast
  ring

/-- A bound with at most 53 significant bits on the magnitude survives rounding. -/
theorem abs_roundBinary64_le (q : ℚ) (m : ℕ) (k : ℤ) (hm : m < 2 ^ 53) (hk : -1074 ≤ k)
    (h : |q| ≤ (m : ℚ) * (2 : ℚ) ^ k) : |roundBinary64 q| ≤ (m : ℚ) * (2 : ℚ) ^ k := by
  rcases le_total 0 q with hq | hq
  · rw [abs_of_nonneg hq] at h
    rw [abs_of_nonneg (roundBinary64_nonneg q hq)]
    exact roundBinary64_le_of_le q m k hm hk hq h
  · rw [abs_of_nonpos hq] at h
    rw [abs_of_nonpos (roundBinary64_nonpos q hq), ← roundBinary64_neg]
    exact roundBinary64_le_of_le (-q) m k hm hk (by linarith) h

theorem DBL_MAX_ge : (2 : ℚ) ^ (1000 : ℤ) ≤ DBL_MAX := by
  unfold DBL_MAX; norm_num

theorem Double.ofRat_of_abs_le (q : ℚ) (h : |q| ≤ (2 : ℚ) ^ (1000 : ℤ)) :
    Double.ofRat q = .finite (roundBinary64 q) := by
  have := abs_roundBinary64_le q 1 1000 (by norm_num) (by norm_num) (by simpa using h)
  unfold Double.ofRat
  rw [if_pos]
  have h2 := DBL_MAX_ge
  simp only [Nat.cast_one, one_mul] at this
  linarith

theorem Double.ofInt_exact (z : ℤ) (hz : |z| < 2 ^ 53) : Double.ofInt z = .finite (z : ℚ) := by
  have e := roundBinary64_exact z 0 hz (by norm_num)
  simp only [zpow_zero, mul_one] at e
  unfold Double.ofInt
  rw [Double.ofRat_of_abs_le, e]
  have : |(z : ℚ)| < (2 : ℚ) ^ (53 : ℤ) := by
    have h1 : ((|z| : ℤ) : ℚ) < ((2 ^ 53 : ℤ) : ℚ) := by exact_mod_cast hz
    rw [Int.cast_abs] at h1
    norm_num at h1 ⊢
    exact h1
  have h2 : (2 : ℚ) ^ (53 : ℤ) ≤ (2 : ℚ) ^ (1000 : ℤ) :=
    zpow_le_zpow_right₀ (by norm_num) (by norm_num)
  linarith

theorem Double.ofInt_NITER : Double.ofInt NITER = .finite 1000 := by
  have := Double.ofInt_exact 1000 (by norm_num)
  simpa [NITER] using this

theorem toInt64_inRange (z : Int) : InRange64 (toInt64 z) := by
  unfold InRange64 toInt64; omega

theorem NSDELTA_inRange (a b : timespec) : InRange64 (NSDELTA a b) := toInt64_inRange _

theorem abs_le_two_pow_63 (z : ℤ) (h : InRange64 z) : |(z : ℚ)| ≤ (1 : ℕ) * (2 : ℚ) ^ (63 : ℤ) := by
  obtain ⟨h1, h2⟩ := h
  have a : (-9223372036854775808 : ℚ) ≤ z := by exact_mod_cast h1
  have b : (z : ℚ) ≤ 9223372036854775807 := by exact_mod_cast h2
  rw [abs_le]; norm_num; constructor <;> linarith

theorem two_pow_63_le : (1 : ℕ) * (2 : ℚ) ^ (63 : ℤ) ≤ (2 : ℚ) ^ (1000 : ℤ) := by
  rw [Nat.cast_one, one_mul]
  exact zpow_le_zpow_right₀ (by norm_num) (by norm_num)

/-- The value `ft` stores is always finite, and is the elapsed count put
through the three roundings of `ftValue`. -/
theorem ft_result_eq (start stop : timespec) :
    ft_result start stop = .finite (ftValue (NSDELTA start stop)) := by
  have hz := abs_le_two_pow_63 _ (NSDELTA_inRange start stop)
  have ha := abs_roundBinary64_le _ 1 63 (by norm_num) (by norm_num) hz
  have hb0 : |roundBinary64 (NSDELTA start stop) / 1000| ≤ (1 : ℕ) * (2 : ℚ) ^ (63 : ℤ) := by
    rw [abs_div, abs_of_pos (by norm_num : (0 : ℚ) < 1000)]
    have : (0 : ℚ) ≤ (1 : ℕ) * (2 : ℚ) ^ (63 : ℤ) := by positivity
    rw [div_le_iff₀ (by norm_num)]
    nlinarith
  have hb := abs_roundBinary64_le _ 1 63 (by norm_num) (by norm_num) hb0
  have hc0 : |roundBinary64 (roundBinary64 (NSDELTA start stop) / 1000) / 2|
      ≤ (1 : ℕ) * (2 : ℚ) ^ (63 : ℤ) := by
    rw [abs_div, abs_of_pos (by norm_num : (0 : ℚ) < 2)]
    have : (0 : ℚ) ≤ (1 : ℕ) * (2 : ℚ) ^ (63 : ℤ) := by positivity
    rw [div_le_iff₀ (by norm_num)]
    nlinarith
  have h63 := two_pow_63_le
  unfold ft_result ftValue
  rw [Double.ofInt_NITER]
  unfold Double.ofInt
  rw [Double.ofRat_of_abs_le _ (le_trans hz h63)]
  simp only [Double.div]
  rw [if_neg (by norm_num), Double.ofRat_of_abs_le _ (le_trans hb0 h63)]
  simp only [Double.div]
  rw [if_neg (by norm_num), Double.ofRat_of_abs_le _ (le_trans hc0 h63)]

theorem ftValue_neg (z : ℚ) : ftValue (-z) = -ftValue z := by
  unfold ftValue
  rw [roundBinary64_neg, neg_div, roundBinary64_neg, neg_div, roundBinary64_neg]

theorem ftValue_zero : ftValue 0 = 0 := by
  unfold ftValue
  simp [roundBinary64_zero]

/-- Two-sided form of the relative error bound for a positive argument. -/
theorem roundBinary64_bounds (q : ℚ) (h : (1 : ℚ) / 10000 ≤ q) :
    (1 - 1 / 9007199254740992) * q ≤ roundBinary64 q ∧
    roundBinary64 q ≤ (1 + 1 / 9007199254740992) * q := by
  have hq : 0 < q := by linarith
  have hsmall : (2 : ℚ) ^ (-1022 : ℤ) ≤ 1 / 10000 := by
    have h1 : (2 : ℚ) ^ (-1022 : ℤ) ≤ (2 : ℚ) ^ (-14 : ℤ) :=
      zpow_le_zpow_right₀ (by norm_num) (by norm_num)
    have h2 : (2 : ℚ) ^ (-14 : ℤ) ≤ 1 / 10000 := by norm_num
    exact le_trans h1 h2
  have := roundBinary64_rel_err q (by rw [abs_of_pos hq]; exact le_trans hsmall h)
  rw [abs_of_pos hq, abs_le] at this
  have hε : (2 : ℚ) ^ (-53 : ℤ) = 1 / 9007199254740992 := by norm_num
  rw [hε] at this
  constructor <;> linarith

theorem ftValue_err_pos (z : ℚ) (hz : 1 ≤ z) :
    |ftValue z - z / 1000 / 2| ≤ (2 : ℚ) ^ (-51 : ℤ) * (z / 1000 / 2) := by
  obtain ⟨a1, a2⟩ := roundBinary64_bounds z (by linarith)
  obtain ⟨b1, b2⟩ := roundBinary64_bounds (roundBinary64 z / 1000) (by linarith)
  obtain ⟨c1, c2⟩ := roundBinary64_bounds (roundBinary64 (roundBinary64 z / 1000) / 2)
    (by linarith)
  have hε : (2 : ℚ) ^ (-51 : ℤ) = 1 / 2251799813685248 := by norm_num
  unfold ftValue
  rw [hε, abs_le]
  constructor <;> linarith

theorem ftValue_err (z : ℤ) :
    |ftValue z - (z : ℚ) / 1000 / 2| ≤ (2 : ℚ) ^ (-51 : ℤ) * |(z : ℚ) / 1000 / 2| := by
  rcases lt_trichotomy z 0 with h | h | h
  · have h1 : (1 : ℚ) ≤ -(z : ℚ) := by
      have : (1 : ℤ) ≤ -z := by omega
      exact_mod_cast this
    have := ftValue_err_pos (-(z : ℚ)) h1
    rw [ftValue_neg] at this
    have e1 : -ftValue (z : ℚ) - -(z : ℚ) / 1000 / 2 = -(ftValue (z : ℚ) - (z : ℚ) / 1000 / 2) := by
      ring
    rw [e1, abs_neg] at this
    have e2 : |(z : ℚ) / 1000 / 2| = -(z : ℚ) / 1000 / 2 := by
      rw [abs_of_nonpos (by linarith)]; ring
    rw [e2]; exact this
  · subst h; simp [ftValue_zero]
  · have h1 : (1 : ℚ) ≤ (z : ℚ) := by
      have : (1 : ℤ) ≤ z := by omega
      exact_mod_cast this
    have := ftValue_err_pos (z : ℚ) h1
    rw [abs_of_nonneg (by linarith : (0 : ℚ) ≤ (z : ℚ) / 1000 / 2)]
    exact this

theorem ftValue_exact (m : ℤ) (hm : |1000 * m| < 2 ^ 53) :
    ftValue ((1000 * m : ℤ) : ℚ) = ((1000 * m : ℤ) : ℚ) / 1000 / 2 := by
  have hm' : |m| < 2 ^ 53 := by
    rw [abs_mul] at hm
    have : |(1000 : ℤ)| = 1000 := by norm_num
    rw [this] at hm
    have := abs_nonneg m
    omega
  have e1 := roundBinary64_exact (1000 * m) 0 hm (by norm_num)
  have e2 := roundBinary64_exact m 0 hm' (by norm_num)
  have e3 := roundBinary64_exact m (-1) hm' (by norm_num)
  simp only [zpow_zero, mul_one] at e1 e2
  unfold ftValue
  rw [e1]
  have : ((1000 * m : ℤ) : ℚ) / 1000 = (m : ℚ) := by push_cast; field_simp
  rw [this, e2]
  have : (m : ℚ) / 2 = (m : ℚ) * (2 : ℚ) ^ (-1 : ℤ) := by norm_num; ring
  rw [this, e3]

theorem roundHalfEven_eq_of_abs_lt (s : ℚ) (m : ℤ) (h : |(m : ℚ) - s| < 1 / 2) :
    roundHalfEven s = m := by
  have h1 := roundHalfEven_sub_le s
  rw [abs_lt] at h
  rw [abs_le] at h1
  have a : ((roundHalfEven s - m : ℤ) : ℚ) < 1 := by push_cast; linarith
  have b : (-1 : ℚ) < ((roundHalfEven s - m : ℤ) : ℚ) := by push_cast; linarith
  have a' : roundHalfEven s - m < 1 := by exact_mod_cast a
  have b' : -1 < roundHalfEven s - m := by exact_mod_cast b
  omega

/-- Evaluation of a rounding from its binade and its nearest grid point. -/
theorem roundBinary64_eval (q : ℚ) (e m : ℤ) (hq : 0 < q)
    (h1 : (2 : ℚ) ^ (e + 52) ≤ q) (h2 : q < (2 : ℚ) ^ (e + 53)) (he : -1074 ≤ e)
    (hm : |(m : ℚ) - q / (2 : ℚ) ^ e| < 1 / 2) :
    roundBinary64 q = (m : ℚ) * (2 : ℚ) ^ e := by
  have l1 := le_log_of_zpow_le q hq _ h1
  have l2 := log_lt_of_lt_zpow q hq _ h2
  have hu : ulpExp q = e := by
    unfold ulpExp
    rw [abs_of_pos hq, max_eq_left (by omega)]
    omega
  unfold roundBinary64
  rw [hu, roundHalfEven_eq_of_abs_lt _ m hm]

theorem roundBinary64_one : roundBinary64 1 = 1 := by
  have := roundBinary64_exact 1 0 (by norm_num) (by norm_num)
  simpa using this

theorem roundBinary64_milli :
    roundBinary64 (1 / 1000) = 4611686018427388 / 4611686018427387904 := by
  have := roundBinary64_eval (1 / 1000) (-62) 4611686018427388 (by norm_num)
    (by norm_num) (by norm_num) (by norm_num) (by norm_num [abs_lt])
  rw [this]; norm_num

theorem ftValue_one : ftValue 1 = 4611686018427388 / 9223372036854775808 := by
  unfold ftValue
  rw [roundBinary64_one, roundBinary64_milli]
  have := roundBinary64_exact 4611686018427388 (-63) (by norm_num) (by norm_num)
  have e : (4611686018427388 : ℚ) / 4611686018427387904 / 2
      = ((4611686018427388 : ℤ) : ℚ) * (2 : ℚ) ^ (-63 : ℤ) := by norm_num
  rw [e, this]; norm_num


/-! ## Claim C2: the trial result -/

/-- Claim C2 fails as stated: for `start = {0, 0}` and `end = {0, 1}` the
elapsed count is exactly `1` nanosecond, and the `double` that `ft` stores is
`4611686018427388 / 2^63`, not the rational `1 / 1000 / 2`. -/
theorem C2_counterexample_one_nanosecond :
    NSDELTA ⟨0, 0⟩ ⟨0, 1⟩ = (⟨0, 1⟩ : timespec).nanos - (⟨0, 0⟩ : timespec).nanos ∧
    ft_result ⟨0, 0⟩ ⟨0, 1⟩ = .finite (4611686018427388 / 9223372036854775808) ∧
    ft_result ⟨0, 0⟩ ⟨0, 1⟩
      ≠ .finite ((((⟨0, 1⟩ : timespec).nanos - (⟨0, 0⟩ : timespec).nanos : ℤ) : ℚ) / NITER / 2) := by
  have hN : NSDELTA ⟨0, 0⟩ ⟨0, 1⟩ = 1 := by decide
  have hv : ft_result ⟨0, 0⟩ ⟨0, 1⟩ = .finite (4611686018427388 / 9223372036854775808) := by
    rw [ft_result_eq, hN, Int.cast_one, ftValue_one]
  refine ⟨by decide, hv, ?_⟩
  rw [hv]
  intro h
  injection h with h
  norm_num [timespec.nanos, NITER] at h

/-- Claim C2, amended: whenever the `long` arithmetic of `NSDELTA(start, end)`
does not overflow, `NSDELTA` is the exact nanosecond difference `elapsed`, and
the value `ft` stores is a finite `double` `v` obtained from `elapsed` by the
three round-to-nearest operations of line 137.  It differs from
`elapsed / NITER / 2` by at most `2^-51` of that quantity, and it equals
`elapsed / NITER / 2` exactly when `elapsed` is a multiple of `NITER` of
magnitude below `2^53`.  (A clock that advances by `delta` per call gives
`elapsed = delta`.) -/
theorem C2_trial_result_is_rounded_quotient (start stop : timespec)
    (h : NSDELTA_defined start stop) :
    NSDELTA start stop = stop.nanos - start.nanos ∧
    ∃ v : ℚ, ft_result start stop = .finite v ∧
      v = roundBinary64 (roundBinary64 (roundBinary64 ((stop.nanos - start.nanos : ℤ) : ℚ)
            / ((NITER : ℕ) : ℚ)) / 2) ∧
      |v - ((stop.nanos - start.nanos : ℤ) : ℚ) / NITER / 2|
        ≤ (2 : ℚ) ^ (-51 : ℤ) * |((stop.nanos - start.nanos : ℤ) : ℚ) / NITER / 2| ∧
      (((NITER : ℕ) : ℤ) ∣ (stop.nanos - start.nanos) → |stop.nanos - start.nanos| < 2 ^ 53 →
        v = ((stop.nanos - start.nanos : ℤ) : ℚ) / NITER / 2) := by
  have hN := NSDELTA_exact start stop h
  refine ⟨hN, ftValue ((stop.nanos - start.nanos : ℤ) : ℚ), ?_, ?_, ?_, ?_⟩
  · rw [ft_result_eq, hN]
  · simp [ftValue, NITER]
  · have := ftValue_err (stop.nanos - start.nanos)
    simpa [NITER] using this
  · intro hd hlt
    obtain ⟨m, hm⟩ := hd
    have hm' : stop.nanos - start.nanos = 1000 * m := by simpa [NITER] using hm
    rw [hm'] at hlt ⊢
    have := ftValue_exact m hlt
    simpa [NITER] using this

theorem C2_trial_result_is_rounded_quotient_witness :
    NSDELTA_defined ⟨0, 999999000⟩ ⟨1, 2000⟩ ∧
    NSDELTA ⟨0, 999999000⟩ ⟨1, 2000⟩ = 3000 ∧
    ft_result ⟨0, 999999000⟩ ⟨1, 2000⟩ = .finite (3 / 2) := by
  have hd : NSDELTA_defined ⟨0, 999999000⟩ ⟨1, 2000⟩ := by
    unfold NSDELTA_defined InRange64; decide
  obtain ⟨h1, v, h2, _, _, h4⟩ := C2_trial_result_is_rounded_quotient ⟨0, 999999000⟩ ⟨1, 2000⟩ hd
  have e : (⟨1, 2000⟩ : timespec).nanos - (⟨0, 999999000⟩ : timespec).nanos = 3000 := by decide
  rw [e] at h1 h4
  have hv := h4 (by norm_num [NITER]) (by norm_num)
  refine ⟨hd, h1, ?_⟩
  rw [h2, hv]
  norm_num [NITER]

/-! ## The handoff protocol: proofs -/

theorem TrialInv_start (clock : Nat → timespec) (n : Nat) (g : Globals) (hx : g.x = true) :
    TrialInv clock n g (Trial.start g) := by
  constructor <;> simp [Trial.start, hx, altWrites, Pc.beforeLoop]

theorem TrialBarrierInv_start (g : Globals) (hb : g.barrier = barrier2) :
    TrialBarrierInv (Trial.start g) := by
  constructor <;> simp [Trial.start, hb, barrier2_eq, Pc.arrived]

theorem altWrites_succ_even (k : Nat) (h : k % 2 = 0) :
    altWrites (k + 1) = altWrites k ++ [{ role := .flipper, old := true, new := false }] := by
  simp [altWrites, h]

theorem altWrites_succ_odd (k : Nat) (h : k % 2 = 1) :
    altWrites (k + 1) = altWrites k ++ [{ role := .timer, old := false, new := true }] := by
  simp [altWrites, h]

theorem wait_of_count (b : pthread_barrier_t) (c : Nat) (ht : b.tripCount = 2)
    (hc : b.count = (c : Int)) (hlt : c < 2) :
    pthread_barrier_wait b
      = if c = 1 then ({ count := 0, tripCount := 2 }, 1)
        else ({ count := 1, tripCount := 2 }, 0) := by
  obtain ⟨bc, bt⟩ := b
  simp only at ht hc
  subst ht hc
  simp only [pthread_barrier_wait]
  rw [toInt32_of_range _ (by omega) (by omega)]
  by_cases h1 : c = 1
  · subst h1; simp
  · have h0 : c = 0 := by omega
    subst h0; simp

theorem TrialInv_stepFlipper (clock : Nat → timespec) (n : Nat) (g : Globals) (s : Trial)
    (h : TrialInv clock n g s) : TrialInv clock n g (s.stepFlipper n) := by
  obtain ⟨a1, a2, a3, a4, a5, a6, a7, a8, a9, a10, a11, a12, a13, a14, a15, a16⟩ := h
  unfold Trial.stepFlipper
  cases hpc : s.fpc with
  | init =>
    rw [hpc] at a10 a11 a12
    constructor <;> dsimp only <;> (try assumption) <;>
      (try (simp [Pc.beforeLoop] at *)) <;> (try assumption) <;> (try omega)
  | barrier =>
    rw [hpc] at a10 a11 a12
    have hfi : s.fi = 0 := a10 rfl
    by_cases hr : (pthread_barrier_wait s.barrier).2 = 1
    · rw [if_pos hr]
      constructor <;> dsimp only <;> (try assumption) <;>
        (try (simp [Pc.beforeLoop] at *)) <;> (try assumption) <;> (try omega)
    · rw [if_neg hr]
      constructor <;> dsimp only <;> (try assumption) <;>
        (try (simp [Pc.beforeLoop] at *)) <;> (try assumption) <;> (try omega)
  | asleep =>
    rw [hpc] at a10 a11 a12
    have hfi : s.fi = 0 := a10 rfl
    by_cases hw : s.fwoken = true
    · rw [if_pos hw]
      constructor <;> dsimp only <;> (try assumption) <;>
        (try (simp [Pc.beforeLoop] at *)) <;> (try assumption) <;> (try omega)
    · rw [if_neg hw]
      constructor <;> (try assumption) <;>
        (try (simp [Pc.beforeLoop, hpc] at *)) <;> (try assumption) <;> (try omega)
  | clock => exact absurd hpc a9
  | loop =>
    rw [hpc] at a10 a11 a12
    by_cases hlt : s.fi < n
    · rw [if_pos hlt]
      cases hx : s.x
      · have : ¬ s.fi = s.ti := fun e => by
          have := a5.mpr e
          rw [hx] at this; exact absurd this (by decide)
        simp only [atomic_compare_exchange_strong_explicit]
        constructor <;> (try assumption) <;>
          (try (simp [Pc.beforeLoop, hpc, hx] at *)) <;> (try assumption) <;>
          (try omega)
      · have hft : s.fi = s.ti := a5.mp hx
        have hw : s.writes ++ [{ role := Role.flipper, old := true, new := false }]
            = altWrites (s.fi + 1 + s.ti) := by
          rw [a8, show s.fi + 1 + s.ti = (s.fi + s.ti) + 1 by omega,
            altWrites_succ_even _ (by omega)]
        simp only [atomic_compare_exchange_strong_explicit]
        constructor <;> dsimp only <;> (try assumption) <;>
          (try (simp [Pc.beforeLoop, hpc, hx] at *)) <;> (try assumption) <;>
          (try omega)
    · rw [if_neg hlt]
      constructor <;> dsimp only <;> (try assumption) <;>
        (try (simp [Pc.beforeLoop] at *)) <;> (try assumption) <;> (try omega)
  | fin =>
    constructor <;> (try assumption) <;>
        (try (simp [Pc.beforeLoop, hpc] at *)) <;> (try assumption) <;> (try omega)

theorem TrialInv_stepTimer (clock : Nat → timespec) (n : Nat) (g : Globals) (s : Trial)
    (h : TrialInv clock n g s) : TrialInv clock n g (s.stepTimer clock n) := by
  obtain ⟨a1, a2, a3, a4, a5, a6, a7, a8, a9, a10, a11, a12, a13, a14, a15, a16⟩ := h
  unfold Trial.stepTimer
  cases hpc : s.tpc with
  | init =>
    rw [hpc] at a13 a14 a15 a16
    constructor <;> dsimp only <;> (try assumption) <;>
      (try (simp [Pc.beforeLoop] at *)) <;> (try assumption) <;> (try omega)
  | barrier =>
    rw [hpc] at a13 a14 a15 a16
    by_cases hr : (pthread_barrier_wait s.barrier).2 = 1
    · rw [if_pos hr]
      constructor <;> dsimp only <;> (try assumption) <;>
        (try (simp [Pc.beforeLoop] at *)) <;> (try assumption) <;> (try omega)
    · rw [if_neg hr]
      constructor <;> dsimp only <;> (try assumption) <;>
        (try (simp [Pc.beforeLoop] at *)) <;> (try assumption) <;> (try omega)
  | asleep =>
    rw [hpc] at a13 a14 a15 a16
    by_cases hw : s.twoken = true
    · rw [if_pos hw]
      constructor <;> dsimp only <;> (try assumption) <;>
        (try (simp [Pc.beforeLoop] at *)) <;> (try assumption) <;> (try omega)
    · rw [if_neg hw]
      constructor <;> (try assumption) <;>
        (try (simp [Pc.beforeLoop, hpc] at *)) <;> (try assumption) <;> (try omega)
  | clock =>
    rw [hpc] at a13 a14 a15 a16
    obtain ⟨b1, b2, b3⟩ := a13 rfl
    constructor <;> dsimp only <;> (try assumption) <;>
      (try (simp [Pc.beforeLoop] at *)) <;> (try assumption) <;> (try omega)
    exact ⟨b2, by rw [b2], b3⟩
  | loop =>
    rw [hpc] at a13 a14 a15 a16
    obtain ⟨b1, b2, b3⟩ := a14 rfl
    by_cases hlt : s.ti < n
    · rw [if_pos hlt]
      cases hx : s.x
      · have hft : s.fi = s.ti + 1 := by
          have : ¬ s.fi = s.ti := fun e => by
            have := a5.mpr e
            rw [hx] at this; exact absurd this (by decide)
          omega
        have hw : s.writes ++ [{ role := Role.timer, old := false, new := true }]
            = altWrites (s.fi + (s.ti + 1)) := by
          rw [a8, show s.fi + (s.ti + 1) = (s.fi + s.ti) + 1 by omega,
            altWrites_succ_odd _ (by omega)]
        simp only [atomic_compare_exchange_strong_explicit]
        constructor <;> dsimp only <;> (try assumption) <;>
          (try (simp [Pc.beforeLoop, hpc, hx] at *)) <;> (try assumption) <;>
          (try omega)
      · have hft : s.fi = s.ti := a5.mp hx
        simp only [atomic_compare_exchange_strong_explicit]
        constructor <;> (try assumption) <;>
          (try (simp [Pc.beforeLoop, hpc, hx] at *)) <;> (try assumption) <;>
          (try omega)
    · rw [if_neg hlt]
      constructor <;> dsimp only <;> (try assumption) <;>
        (try (simp [Pc.beforeLoop] at *)) <;> (try assumption) <;> (try omega)
      exact ⟨by omega, b1, by rw [b2, b1]⟩
  | fin =>
    constructor <;> (try assumption) <;>
        (try (simp [Pc.beforeLoop, hpc] at *)) <;> (try assumption) <;> (try omega)

theorem TrialBarrierInv_stepFlipper (n : Nat) (s : Trial)
    (h : TrialBarrierInv s) : TrialBarrierInv (s.stepFlipper n) := by
  obtain ⟨a9, a17, a18, b1, b2, b3, b4, b5, b6⟩ := h
  unfold Trial.stepFlipper
  cases hpc : s.fpc with
  | init =>
    constructor <;> dsimp only <;> simp_all [Pc.arrived]
  | barrier =>
    cases htpc : s.tpc <;> rw [hpc, htpc] at a18
    all_goals
      first
      | (have hw := wait_of_count s.barrier 0 a17 (by simpa [Pc.arrived] using a18) (by omega)
         rw [hw])
      | (have hw := wait_of_count s.barrier 1 a17 (by simpa [Pc.arrived] using a18) (by omega)
         rw [hw])
    all_goals
      constructor <;> dsimp only <;> simp_all [Pc.arrived]
  | asleep =>
    by_cases hw : s.fwoken = true
    · rw [if_pos hw]
      constructor <;> dsimp only <;> simp_all [Pc.arrived]
    · rw [if_neg hw]
      exact ⟨a9, a17, a18, b1, b2, b3, b4, b5, b6⟩
  | clock => exact absurd hpc a9
  | loop =>
    by_cases hlt : s.fi < n
    · rw [if_pos hlt]
      by_cases hs : (atomic_compare_exchange_strong_explicit s.x true false).success = true
      · simp only [hs, if_true]
        constructor <;> dsimp only <;> simp_all [Pc.arrived]
      · simp only [hs]
        exact ⟨a9, a17, a18, b1, b2, b3, b4, b5, b6⟩
    · rw [if_neg hlt]
      constructor <;> dsimp only <;> simp_all [Pc.arrived]
  | fin => exact ⟨a9, a17, a18, b1, b2, b3, b4, b5, b6⟩

theorem TrialBarrierInv_stepTimer (clock : Nat → timespec) (n : Nat) (s : Trial)
    (h : TrialBarrierInv s) : TrialBarrierInv (s.stepTimer clock n) := by
  obtain ⟨a9, a17, a18, b1, b2, b3, b4, b5, b6⟩ := h
  unfold Trial.stepTimer
  cases hpc : s.tpc with
  | init =>
    constructor <;> dsimp only <;> simp_all [Pc.arrived]
  | barrier =>
    cases hfpc : s.fpc <;> rw [hpc, hfpc] at a18
    all_goals
      first
      | (have hw := wait_of_count s.barrier 0 a17 (by simpa [Pc.arrived] using a18) (by omega)
         rw [hw])
      | (have hw := wait_of_count s.barrier 1 a17 (by simpa [Pc.arrived] using a18) (by omega)
         rw [hw])
    all_goals
      constructor <;> dsimp only <;> simp_all [Pc.arrived]
  | asleep =>
    by_cases hw : s.twoken = true
    · rw [if_pos hw]
      constructor <;> dsimp only <;> simp_all [Pc.arrived]
    · rw [if_neg hw]
      exact ⟨a9, a17, a18, b1, b2, b3, b4, b5, b6⟩
  | clock =>
    constructor <;> dsimp only <;> simp_all [Pc.arrived]
  | loop =>
    by_cases hlt : s.ti < n
    · rw [if_pos hlt]
      by_cases hs : (atomic_compare_exchange_strong_explicit s.x false true).success = true
      · simp only [hs, if_true]
        constructor <;> dsimp only <;> simp_all [Pc.arrived]
      · simp only [hs]
        exact ⟨a9, a17, a18, b1, b2, b3, b4, b5, b6⟩
    · rw [if_neg hlt]
      constructor <;> dsimp only <;> simp_all [Pc.arrived]
  | fin => exact ⟨a9, a17, a18, b1, b2, b3, b4, b5, b6⟩


theorem TrialBarrierInv_step (clock : Nat → timespec) (n : Nat) (s : Trial) (r : Role)
    (h : TrialBarrierInv s) : TrialBarrierInv (s.step clock n r) := by
  cases r
  · exact TrialBarrierInv_stepFlipper n s h
  · exact TrialBarrierInv_stepTimer clock n s h

theorem TrialInv_step (clock : Nat → timespec) (n : Nat) (g : Globals) (s : Trial) (r : Role)
    (h : TrialInv clock n g s) : TrialInv clock n g (s.step clock n r) := by
  cases r
  · exact TrialInv_stepFlipper clock n g s h
  · exact TrialInv_stepTimer clock n g s h

theorem TrialInv_run (clock : Nat → timespec) (n : Nat) (g : Globals) (sched : List Role)
    (s : Trial) (h : TrialInv clock n g s) : TrialInv clock n g (s.run clock n sched) := by
  induction sched generalizing s with
  | nil => exact h
  | cons r rs ih => exact ih (s.step clock n r) (TrialInv_step clock n g s r h)

/-- Every state a trial reaches from globals with `x = true` satisfies the
trial invariant. -/
theorem TrialInv_reachable (clock : Nat → timespec) (n : Nat) (g : Globals)
    (hx : g.x = true) (sched : List Role) :
    TrialInv clock n g ((Trial.start g).run clock n sched) :=
  TrialInv_run clock n g sched _ (TrialInv_start clock n g hx)

theorem TrialBarrierInv_run (clock : Nat → timespec) (n : Nat) (sched : List Role)
    (s : Trial) (h : TrialBarrierInv s) : TrialBarrierInv (s.run clock n sched) := by
  induction sched generalizing s with
  | nil => exact h
  | cons r rs ih => exact ih (s.step clock n r) (TrialBarrierInv_step clock n s r h)

theorem Trial.run_append (clock : Nat → timespec) (n : Nat) (s : Trial) (a b : List Role) :
    s.run clock n (a ++ b) = (s.run clock n a).run clock n b := by
  simp [Trial.run, List.foldl_append]

theorem joined_iff (s : Trial) : s.joined = true ↔ s.fpc = .fin ∧ s.tpc = .fin := by
  simp [Trial.joined]

/-- What a trial whose threads have both returned leaves behind. -/
theorem trial_outcome (clock : Nat → timespec) (n : Nat) (g : Globals)
    (hx : g.x = true) (hb : g.barrier = barrier2) (sched : List Role)
    (hj : ((Trial.start g).run clock n sched).joined = true) :
    ((Trial.start g).run clock n sched).x = true ∧
    ((Trial.start g).run clock n sched).barrier = barrier2 ∧
    ((Trial.start g).run clock n sched).i_c = g.i_c ∧
    ((Trial.start g).run clock n sched).j_c = g.j_c ∧
    ((Trial.start g).run clock n sched).clockCalls = g.clockCalls + 2 ∧
    ((Trial.start g).run clock n sched).res
      = some (ft_result (clock g.clockCalls) (clock (g.clockCalls + 1))) ∧
    ((Trial.start g).run clock n sched).fcore = g.i_c ∧
    ((Trial.start g).run clock n sched).tcore = g.j_c ∧
    ((Trial.start g).run clock n sched).fi = n ∧
    ((Trial.start g).run clock n sched).ti = n := by
  have h := TrialInv_reachable clock n g hx sched
  have hB := TrialBarrierInv_run clock n sched _ (TrialBarrierInv_start g hb)
  obtain ⟨hf, ht⟩ := (joined_iff _).mp hj
  generalize (Trial.start g).run clock n sched = s at h hB hf ht ⊢
  obtain ⟨t1, t2, t3⟩ := h.t_fin ht
  have f1 := h.f_fin hf
  have hbar : s.barrier = barrier2 := by
    have c := hB.count_eq
    have t := hB.trip
    rw [hf, ht] at c
    cases hsb : s.barrier with
    | mk bc bt =>
      rw [hsb] at c t
      simp only [Pc.arrived] at c
      simp only at t
      rw [barrier2_eq]
      subst t
      simp at c
      rw [c]
  refine ⟨h.x_iff.mpr (by omega), hbar, h.i_c_eq, h.j_c_eq, t2, t3,
    h.f_core (by rw [hf]; decide), h.t_core (by rw [ht]; decide), f1, t1⟩

theorem roundRobin_add (a b : Nat) : roundRobin (a + b) = roundRobin a ++ roundRobin b := by
  induction a with
  | zero => simp [roundRobin]
  | succ a ih => rw [Nat.succ_add]; simp [roundRobin, ih]

/-- In the loops, with `x = true` and equal counters, a round of turns is one
handoff by each thread. -/
theorem loop_rounds (clock : Nat → timespec) (n m : Nat) (s : Trial)
    (hf : s.fpc = .loop) (ht : s.tpc = .loop) (hx : s.x = true) (he : s.fi = s.ti)
    (hle : s.fi + m ≤ n) :
    (s.run clock n (roundRobin m)).fpc = .loop ∧
    (s.run clock n (roundRobin m)).tpc = .loop ∧
    (s.run clock n (roundRobin m)).x = true ∧
    (s.run clock n (roundRobin m)).fi = s.fi + m ∧
    (s.run clock n (roundRobin m)).ti = s.ti + m := by
  induction m generalizing s with
  | zero => simp [roundRobin, Trial.run, hf, ht, hx]
  | succ m ih =>
    have hlt : s.fi < n := by omega
    have hlt' : s.ti < n := by omega
    have key := ih ((s.step clock n .flipper).step clock n .timer)
      (by simp [Trial.step, Trial.stepFlipper, Trial.stepTimer, hf, ht, hx, hlt, hlt',
            atomic_compare_exchange_strong_explicit])
      (by simp [Trial.step, Trial.stepFlipper, Trial.stepTimer, hf, ht, hx, hlt, hlt',
            atomic_compare_exchange_strong_explicit])
      (by simp [Trial.step, Trial.stepFlipper, Trial.stepTimer, hf, ht, hx, hlt, hlt',
            atomic_compare_exchange_strong_explicit])
      (by simp [Trial.step, Trial.stepFlipper, Trial.stepTimer, hf, ht, hx, hlt, hlt',
            atomic_compare_exchange_strong_explicit, he])
      (by simp [Trial.step, Trial.stepFlipper, Trial.stepTimer, hf, ht, hx, hlt, hlt',
            atomic_compare_exchange_strong_explicit]; omega)
    have e : s.run clock n (roundRobin (m + 1))
        = ((s.step clock n .flipper).step clock n .timer).run clock n (roundRobin m) := by
      simp [roundRobin, Trial.run]
    rw [e]
    obtain ⟨k1, k2, k3, k4, k5⟩ := key
    refine ⟨k1, k2, k3, ?_, ?_⟩
    · rw [k4]
      simp [Trial.step, Trial.stepFlipper, Trial.stepTimer, hf, ht, hx, hlt, hlt',
            atomic_compare_exchange_strong_explicit]
      omega
    · rw [k5]
      simp [Trial.step, Trial.stepFlipper, Trial.stepTimer, hf, ht, hx, hlt, hlt',
            atomic_compare_exchange_strong_explicit]
      omega

/-- Taking turns for `n + 4` rounds lets both threads of a trial return. -/
theorem roundRobin_complete (n : Nat) : Complete n (roundRobin (n + 4)) := by
  intro clock g hx hb
  have e : roundRobin (n + 4) = roundRobin 3 ++ (roundRobin n ++ roundRobin 1) := by
    rw [← roundRobin_add, ← roundRobin_add]; congr 1; omega
  rw [e, Trial.run_append, Trial.run_append]
  have hb' : g.barrier = { count := 0, tripCount := 2 } := by rw [hb, barrier2_eq]
  have p1 : ((Trial.start g).run clock n (roundRobin 3)).fpc = .loop ∧
      ((Trial.start g).run clock n (roundRobin 3)).tpc = .loop ∧
      ((Trial.start g).run clock n (roundRobin 3)).x = true ∧
      ((Trial.start g).run clock n (roundRobin 3)).fi = 0 ∧
      ((Trial.start g).run clock n (roundRobin 3)).ti = 0 := by
    simp [Trial.run, roundRobin, Trial.step, Trial.stepFlipper, Trial.stepTimer, Trial.start,
      hb', hx, pthread_barrier_wait, toInt32]
  generalize (Trial.start g).run clock n (roundRobin 3) = s3 at p1
  obtain ⟨q1, q2, q3, q4, q5⟩ := p1
  obtain ⟨r1, r2, r3, r4, r5⟩ := loop_rounds clock n n s3 q1 q2 q3 (by omega) (by omega)
  generalize s3.run clock n (roundRobin n) = s4 at r1 r2 r3 r4 r5
  have r4' : ¬ s4.fi < n := by omega
  have r5' : ¬ s4.ti < n := by omega
  simp [Trial.run, roundRobin, Trial.step, Trial.stepFlipper, Trial.stepTimer, Trial.joined,
    r1, r2, r4', r5']

/-! ## Claim C8: the handoff protocol -/

theorem altWrites_length (m : Nat) : (altWrites m).length = m := by
  induction m with
  | zero => rfl
  | succ m ih => simp [altWrites, ih]

/-- The `k`-th write of the alternation: the Flipper's `true → false` at even
positions, the Timer's `false → true` at odd positions. -/
theorem altWrites_getElem? (m k : Nat) :
    (altWrites m)[k]? =
      if k < m then
        some (if k % 2 = 0 then { role := .flipper, old := true, new := false }
              else { role := .timer, old := false, new := true })
      else none := by
  induction m with
  | zero => simp [altWrites]
  | succ m ih =>
    rw [altWrites, List.getElem?_append, altWrites_length]
    by_cases h : k < m
    · have h' : k < m + 1 := by omega
      simp only [h, h', if_true, ih]
    · by_cases h2 : k = m
      · subst h2; simp
      · have h' : ¬ k < m + 1 := by omega
        simp only [h, h', if_false]
        apply List.getElem?_eq_none
        simp only [List.length_singleton]
        omega

/-- Claim C8: in every state a trial reaches from `x = true`, whatever the
interleaving, the clock and the loop bound, the successful writes to `x` so far
are exactly the first `F + T` writes of the strict alternation (position `k`
is the Flipper's `true → false` when `k` is even and the Timer's
`false → true` when `k` is odd), where `F` and `T` are the handoff counters of
the two loops; `T ≤ F ≤ T + 1`; `x` is true exactly when `F = T`; and an
attempt inside either loop succeeds (advances the counter and flips `x`)
exactly when `x` holds the fixed expected value of the role, a failed attempt
leaving the whole state as it was. -/
theorem C8_writes_strictly_alternate (clock : Nat → timespec) (n : Nat) (g : Globals)
    (hx : g.x = true) (sched : List Role) :
    ((Trial.start g).run clock n sched).writes
      = altWrites (((Trial.start g).run clock n sched).fi
          + ((Trial.start g).run clock n sched).ti) ∧
    (∀ k : Nat, k < ((Trial.start g).run clock n sched).writes.length →
      ((Trial.start g).run clock n sched).writes[k]?
        = some (if k % 2 = 0 then { role := .flipper, old := true, new := false }
                else { role := .timer, old := false, new := true })) ∧
    ((Trial.start g).run clock n sched).ti ≤ ((Trial.start g).run clock n sched).fi ∧
    ((Trial.start g).run clock n sched).fi ≤ ((Trial.start g).run clock n sched).ti + 1 ∧
    (((Trial.start g).run clock n sched).x = true ↔
      ((Trial.start g).run clock n sched).fi = ((Trial.start g).run clock n sched).ti) ∧
    (((Trial.start g).run clock n sched).fpc = .loop →
      ((Trial.start g).run clock n sched).fi < n →
        (((Trial.start g).run clock n sched).x = true →
          (((Trial.start g).run clock n sched).stepFlipper n).fi
              = ((Trial.start g).run clock n sched).fi + 1 ∧
          (((Trial.start g).run clock n sched).stepFlipper n).x = false) ∧
        (((Trial.start g).run clock n sched).x = false →
          ((Trial.start g).run clock n sched).stepFlipper n
            = (Trial.start g).run clock n sched)) ∧
    (((Trial.start g).run clock n sched).tpc = .loop →
      ((Trial.start g).run clock n sched).ti < n →
        (((Trial.start g).run clock n sched).x = false →
          (((Trial.start g).run clock n sched).stepTimer clock n).ti
              = ((Trial.start g).run clock n sched).ti + 1 ∧
          (((Trial.start g).run clock n sched).stepTimer clock n).x = true) ∧
        (((Trial.start g).run clock n sched).x = true →
          ((Trial.start g).run clock n sched).stepTimer clock n
            = (Trial.start g).run clock n sched)) := by
  have h := TrialInv_reachable clock n g hx sched
  generalize (Trial.start g).run clock n sched = s at h ⊢
  refine ⟨h.writes_eq, ?_, h.ti_le_fi, h.fi_le_succ, h.x_iff, ?_, ?_⟩
  · intro k hk
    rw [h.writes_eq, altWrites_length] at hk
    rw [h.writes_eq, altWrites_getElem?, if_pos hk]
  · intro hpc hlt
    constructor
    · intro hxt
      simp [Trial.stepFlipper, hpc, hlt, hxt, atomic_compare_exchange_strong_explicit]
    · intro hxf
      simp [Trial.stepFlipper, hpc, hlt, hxf, atomic_compare_exchange_strong_explicit]
  · intro hpc hlt
    constructor
    · intro hxf
      simp [Trial.stepTimer, hpc, hlt, hxf, atomic_compare_exchange_strong_explicit]
    · intro hxt
      simp [Trial.stepTimer, hpc, hlt, hxt, atomic_compare_exchange_strong_explicit]

theorem C8_writes_strictly_alternate_witness :
    Proc.initial.g.x = true ∧
    ((Trial.start Proc.initial.g).run (steadyWorld 7).clock 2 (roundRobin 5)).writes
      = [⟨.flipper, true, false⟩, ⟨.timer, false, true⟩, ⟨.flipper, true, false⟩,
         ⟨.timer, false, true⟩] := by
  refine ⟨rfl, ?_⟩
  rw [(C8_writes_strictly_alternate (steadyWorld 7).clock 2 Proc.initial.g rfl (roundRobin 5)).1]
  decide

/-! ## The sweep: proofs -/

theorem forRange_zero (body : Nat → Proc → Option Proc) (p : Proc) :
    forRange 0 body p = some p := by
  simp [forRange]

theorem forRange_succ (m : Nat) (body : Nat → Proc → Option Proc) (p : Proc) :
    forRange (m + 1) body p = (forRange m body p).bind (body m) := by
  simp only [forRange, List.range_succ, List.foldlM_append]
  cases h : List.foldlM (fun q k => body k q) p (List.range m) with
  | none => rfl
  | some q => simp [List.foldlM]

theorem setCell_same (r : Nat → Nat → Double) (i j : Nat) (v : Double) :
    setCell r i j v i j = v := by
  simp [setCell]

theorem setCell_other (r : Nat → Nat → Double) (i j a b : Nat) (v : Double)
    (h : (a, b) ≠ (i, j)) : setCell r i j v a b = r a b := by
  unfold setCell
  rw [if_neg]
  rintro ⟨rfl, rfl⟩
  exact h rfl

theorem setCell_setCell (r : Nat → Nat → Double) (i j : Nat) (u v : Double) :
    setCell (setCell r i j u) i j v = setCell r i j v := by
  funext a b
  unfold setCell
  split_ifs <;> rfl

theorem accTrials_succ (w : World) (t0 m : Nat) (init : Double) :
    accTrials w t0 (m + 1) init
      = Double.add (accTrials w t0 m init) (trialResult w (t0 + m)) := by
  simp [accTrials, List.range_succ, List.foldl_append]

/-- One trial, when the process is between trials and the interleaving lets
both threads return. -/
theorem oneTrial_spec (w : World) (niter i j : Nat) (p : Proc) (hp : ProcOK p)
    (hc : Complete niter (w.sched p.trialNo)) :
    oneTrial w niter i j p = some
      { g := { p.g with clockCalls := p.g.clockCalls + 2 },
        result := setCell p.result i j (Double.add (p.result i j) (trialResult w p.trialNo)),
        out := p.out,
        trialNo := p.trialNo + 1,
        log := p.log ++ [{ i_c := p.g.i_c, j_c := p.g.j_c, fcore := p.g.i_c, tcore := p.g.j_c,
                           xAtStart := true, res := trialResult w p.trialNo }] } := by
  have hj := hc w.clock p.g hp.x_true hp.barrier_ok
  obtain ⟨o1, o2, o3, o4, o5, o6, o7, o8, _, _⟩ :=
    trial_outcome w.clock niter p.g hp.x_true hp.barrier_ok (w.sched p.trialNo) hj
  unfold oneTrial
  simp only [hj, if_true, o6]
  have e : ft_result (w.clock p.g.clockCalls) (w.clock (p.g.clockCalls + 1))
      = trialResult w p.trialNo := by
    unfold trialResult; rw [hp.clock_eq]
  rw [o1, o2, o3, o4, o5, o7, o8, e, hp.x_true]
  congr 2
  have hx := hp.x_true
  have hb := hp.barrier_ok
  cases hg : p.g with
  | mk x b ic jc cc =>
    rw [hg] at hx hb
    simp only at hx hb
    subst hx hb
    rfl

theorem setCell_self (r : Nat → Nat → Double) (i j : Nat) : setCell r i j (r i j) = r := by
  funext a b
  unfold setCell
  split_ifs with h
  · obtain ⟨rfl, rfl⟩ := h; rfl
  · rfl

/-- The trial loop of a pair: `m` trials, each adding its result to
`result[i][j]`. -/
theorem trials_spec (w : World) (niter i j : Nat) (hC : ∀ t, Complete niter (w.sched t))
    (m : Nat) (p : Proc) (hp : ProcOK p) :
    forRange m (fun _ => oneTrial w niter i j) p = some
      { g := { p.g with clockCalls := p.g.clockCalls + 2 * m },
        result := setCell p.result i j (accTrials w p.trialNo m (p.result i j)),
        out := p.out,
        trialNo := p.trialNo + m,
        log := p.log ++ (List.range m).map fun t =>
          { i_c := p.g.i_c, j_c := p.g.j_c, fcore := p.g.i_c, tcore := p.g.j_c,
            xAtStart := true, res := trialResult w (p.trialNo + t) } } := by
  induction m with
  | zero =>
    rw [forRange_zero]
    simp [accTrials, setCell_self]
  | succ m ih =>
    rw [forRange_succ, ih, Option.some_bind]
    have hq : ProcOK
        { g := { p.g with clockCalls := p.g.clockCalls + 2 * m },
          result := setCell p.result i j (accTrials w p.trialNo m (p.result i j)),
          out := p.out,
          trialNo := p.trialNo + m,
          log := p.log ++ (List.range m).map fun t =>
            { i_c := p.g.i_c, j_c := p.g.j_c, fcore := p.g.i_c, tcore := p.g.j_c,
              xAtStart := true, res := trialResult w (p.trialNo + t) } } :=
      ⟨hp.x_true, hp.barrier_ok, by simp only; rw [hp.clock_eq]; ring⟩
    rw [oneTrial_spec w niter i j _ hq (hC _)]
    rw [show p.g.clockCalls + 2 * (m + 1) = p.g.clockCalls + 2 * m + 2 by ring,
      show p.trialNo + (m + 1) = p.trialNo + m + 1 by ring]
    simp only [setCell_same, setCell_setCell, accTrials_succ, List.range_succ, List.map_append,
      List.map_cons, List.map_nil, List.append_assoc]

theorem ProcOK_initial : ProcOK Proc.initial := ⟨rfl, rfl, rfl⟩

theorem linesFrom_append (w : World) (ntrials : Nat) (k : Nat) (l : List (Nat × Nat))
    (ij : Nat × Nat) :
    linesFrom w ntrials k (l ++ [ij])
      = linesFrom w ntrials k l ++ [pairLine w ntrials (k + l.length) ij] := by
  induction l generalizing k with
  | nil => simp [linesFrom]
  | cons a l ih =>
    have e := ih (k + 1)
    rw [show k + 1 + l.length = k + (l.length + 1) by omega] at e
    rw [List.cons_append, linesFrom, linesFrom, e, List.cons_append, List.length_cons]

theorem recordsFrom_append (w : World) (ntrials : Nat) (k : Nat) (l : List (Nat × Nat))
    (ij : Nat × Nat) :
    recordsFrom w ntrials k (l ++ [ij])
      = recordsFrom w ntrials k l ++ pairRecords w ntrials (k + l.length) ij := by
  induction l generalizing k with
  | nil => simp [recordsFrom]
  | cons a l ih =>
    have e := ih (k + 1)
    rw [show k + 1 + l.length = k + (l.length + 1) by omega] at e
    rw [List.cons_append, recordsFrom, recordsFrom, e, List.append_assoc, List.length_cons]

theorem linesFrom_map (w : World) (ntrials : Nat) (k : Nat) (l : List (Nat × Nat)) :
    (linesFrom w ntrials k l).map (fun ln => (ln.i, ln.j))
      = l.map (fun ij => ((ij.1 : Int), (ij.2 : Int))) := by
  induction l generalizing k with
  | nil => rfl
  | cons a l ih => simp [linesFrom, pairLine, ih]

/-- Processing one pair `(i, j)`, `i ≠ j`, not processed before. -/
theorem pairBody_step (w : World) (ntrials niter i j : Nat)
    (hC : ∀ t, Complete niter (w.sched t)) (l : List (Nat × Nat)) (p : Proc)
    (h : SweepInv w ntrials l p) (hne : i ≠ j) (hnot : (i, j) ∉ l) :
    ∃ q, pairBody w ntrials niter i j p = some q ∧ SweepInv w ntrials (l ++ [(i, j)]) q := by
  have hp1 : ProcOK { p with g := { p.g with i_c := (i : Int), j_c := (j : Int) } } :=
    ⟨h.ok.x_true, h.ok.barrier_ok, h.ok.clock_eq⟩
  have hcell : p.result i j = .finite 0 := h.cell_untouched i j hnot
  unfold pairBody
  rw [if_neg hne, trials_spec w niter i j hC ntrials _ hp1, Option.map_some']
  refine ⟨_, rfl, ?_⟩
  simp only [setCell_same, hcell]
  have hsum : accTrials w p.trialNo ntrials (.finite 0) = sumTrials w (l.length * ntrials) ntrials := by
    rw [h.trialNo_eq]; rfl
  constructor
  · exact ⟨h.ok.x_true, h.ok.barrier_ok, by simp only; rw [h.ok.clock_eq]; ring⟩
  · simp only [List.length_append, List.length_singleton]
    rw [h.trialNo_eq]; ring
  · simp only
    rw [linesFrom_append, h.out_eq, hsum]
    simp [pairLine]
  · simp only
    rw [recordsFrom_append, h.log_eq, h.trialNo_eq]
    simp [pairRecords]
  · intro a b hab
    simp only [List.mem_append, List.mem_singleton, not_or] at hab
    simp only
    rw [setCell_other _ _ _ _ _ _ hab.2]
    exact h.cell_untouched a b hab.1
  · intro k a b hk
    simp only
    by_cases hlt : k < l.length
    · rw [List.getElem?_append_left hlt] at hk
      have hmem : (a, b) ∈ l := List.getElem?_mem hk
      have hne' : (a, b) ≠ (i, j) := fun e => hnot (e ▸ hmem)
      rw [setCell_other _ _ _ _ _ _ hne']
      exact h.cell_done k a b hk
    · rw [List.getElem?_append_right (by omega)] at hk
      have hk0 : k = l.length := by
        by_contra hc
        have : [(i, j)][k - l.length]? = none :=
          List.getElem?_eq_none (by simp only [List.length_singleton]; omega)
        rw [this] at hk; exact absurd hk (by simp)
      subst hk0
      simp only [Nat.sub_self, List.getElem?_cons_zero, Option.some.injEq, Prod.mk.injEq] at hk
      obtain ⟨rfl, rfl⟩ := hk
      rw [setCell_same, hsum]

theorem rowPairs_succ (i j : Nat) :
    rowPairs i (j + 1) = rowPairs i j ++ (if i ≠ j then [(i, j)] else []) := by
  unfold rowPairs
  rw [List.range_succ, List.filter_append, List.map_append]
  by_cases h : i = j
  · simp [h]
  · simp [h]

theorem mem_rowPairs (i m a b : Nat) : (a, b) ∈ rowPairs i m ↔ a = i ∧ b < m ∧ a ≠ b := by
  unfold rowPairs
  simp only [List.mem_map, List.mem_filter, List.mem_range, decide_eq_true_eq, Prod.mk.injEq]
  constructor
  · rintro ⟨c, ⟨h1, h2⟩, rfl, rfl⟩
    exact ⟨rfl, h1, h2⟩
  · rintro ⟨rfl, h1, h2⟩
    exact ⟨b, ⟨h1, h2⟩, rfl, rfl⟩

theorem mem_pairsBefore (n i j a b : Nat) :
    (a, b) ∈ pairsBefore n i j ↔ (a < i ∧ b < n ∧ a ≠ b) ∨ (a = i ∧ b < j ∧ a ≠ b) := by
  unfold pairsBefore
  simp only [List.mem_append, List.mem_flatMap, List.mem_range, mem_rowPairs]
  constructor
  · rintro (⟨c, hc, rfl, h⟩ | h)
    · exact Or.inl ⟨hc, h⟩
    · exact Or.inr h
  · rintro (⟨h1, h2⟩ | h)
    · exact Or.inl ⟨a, h1, rfl, h2⟩
    · exact Or.inr h

theorem pairsBefore_succ_col (n i j : Nat) :
    pairsBefore n i (j + 1) = pairsBefore n i j ++ (if i ≠ j then [(i, j)] else []) := by
  unfold pairsBefore
  rw [rowPairs_succ, List.append_assoc]

theorem pairsBefore_next_row (n i : Nat) : pairsBefore n (i + 1) 0 = pairsBefore n i n := by
  unfold pairsBefore
  rw [List.range_succ, List.flatMap_append]
  simp [rowPairs]

theorem pairsBefore_all (n : Nat) : pairsBefore n n 0 = pairsOf n := by
  unfold pairsBefore pairsOf
  simp [rowPairs]

theorem SweepInv_initial (w : World) (ntrials : Nat) : SweepInv w ntrials [] Proc.initial := by
  constructor
  · exact ProcOK_initial
  · simp [Proc.initial]
  · rfl
  · rfl
  · intro a b _; rfl
  · intro k a b hk; simp at hk

/-- The inner loop of the sweep up to column `j` of row `i`. -/
theorem row_loop (w : World) (n ntrials niter i : Nat)
    (hC : ∀ t, Complete niter (w.sched t)) (p0 : Proc)
    (h0 : SweepInv w ntrials (pairsBefore n i 0) p0) (j : Nat) :
    ∃ p, forRange j (fun j => pairBody w ntrials niter i j) p0 = some p ∧
      SweepInv w ntrials (pairsBefore n i j) p := by
  induction j with
  | zero => exact ⟨p0, forRange_zero _ _, h0⟩
  | succ j ih =>
    obtain ⟨p, hp, hinv⟩ := ih
    rw [forRange_succ, hp, Option.some_bind, pairsBefore_succ_col]
    by_cases hij : i = j
    · refine ⟨p, by simp [pairBody, hij], ?_⟩
      simpa [hij] using hinv
    · have hnot : (i, j) ∉ pairsBefore n i j := by
        rw [mem_pairsBefore]; omega
      obtain ⟨q, hq, hqinv⟩ := pairBody_step w ntrials niter i j hC _ p hinv hij hnot
      exact ⟨q, hq, by simpa [hij] using hqinv⟩

/-- The sweep up to row `i`. -/
theorem rows_loop (w : World) (n ntrials niter : Nat)
    (hC : ∀ t, Complete niter (w.sched t)) (i : Nat) :
    ∃ p, forRange i (fun i => forRange n (fun j => pairBody w ntrials niter i j)) Proc.initial
        = some p ∧
      SweepInv w ntrials (pairsBefore n i 0) p := by
  induction i with
  | zero =>
    refine ⟨Proc.initial, forRange_zero _ _, ?_⟩
    have : pairsBefore n 0 0 = [] := by simp [pairsBefore, rowPairs]
    rw [this]
    exact SweepInv_initial w ntrials
  | succ i ih =>
    obtain ⟨p, hp, hinv⟩ := ih
    obtain ⟨q, hq, hqinv⟩ := row_loop w n ntrials niter i hC p hinv n
    rw [forRange_succ, hp, Option.some_bind, pairsBefore_next_row]
    exact ⟨q, hq, hqinv⟩

/-- The sweep over `n` cores, when every trial's interleaving lets both threads
return: it terminates, and its final state is the one described by `SweepInv`
for the list of all ordered pairs of distinct indices. -/
theorem sweep_spec (w : World) (n ntrials niter : Nat)
    (hC : ∀ t, Complete niter (w.sched t)) :
    ∃ p, sweep w n ntrials niter Proc.initial = some p ∧
      SweepInv w ntrials (pairsOf n) p := by
  obtain ⟨p, hp, hinv⟩ := rows_loop w n ntrials niter hC n
  rw [pairsBefore_all] at hinv
  exact ⟨p, hp, hinv⟩

theorem steadyWorld_complete (delta : Nat) (t : Nat) :
    Complete NITER ((steadyWorld delta).sched t) :=
  roundRobin_complete NITER

/-! ## The list of pairs -/

theorem mem_pairsOf (n a b : Nat) : (a, b) ∈ pairsOf n ↔ a < n ∧ b < n ∧ a ≠ b := by
  rw [← pairsBefore_all, mem_pairsBefore]
  constructor
  · rintro (h | h)
    · exact h
    · omega
  · intro h; exact Or.inl h

theorem rowPairs_length (i m : Nat) :
    (rowPairs i m).length = if i < m then m - 1 else m := by
  induction m with
  | zero => simp [rowPairs]
  | succ m ih =>
    rw [rowPairs_succ, List.length_append, ih]
    by_cases h : i = m
    · subst h; simp
    · by_cases h2 : i < m
      · simp [h, h2, Nat.lt_succ_of_lt h2]; omega
      · have h3 : ¬ i < m + 1 := by omega
        simp [h, h2, h3]

theorem pairsBefore_length (n i : Nat) (hi : i ≤ n) :
    (pairsBefore n i 0).length = i * (n - 1) := by
  induction i with
  | zero => simp [pairsBefore, rowPairs]
  | succ i ih =>
    rw [pairsBefore_next_row]
    have e : pairsBefore n i n = pairsBefore n i 0 ++ rowPairs i n := by
      simp [pairsBefore, rowPairs]
    rw [e, List.length_append, ih (by omega), rowPairs_length, if_pos (by omega)]
    ring

theorem pairsOf_length (n : Nat) : (pairsOf n).length = n * (n - 1) := by
  rw [← pairsBefore_all, pairsBefore_length n n (le_refl n)]

theorem rowPairs_sorted (i m : Nat) : (rowPairs i m).Pairwise lexLt := by
  unfold rowPairs
  rw [List.pairwise_map]
  apply List.Pairwise.imp _ ((List.pairwise_lt_range m).filter _)
  intro a b hab
  exact Or.inr ⟨rfl, hab⟩

theorem pairsOf_sorted (n : Nat) : (pairsOf n).Pairwise lexLt := by
  unfold pairsOf
  rw [List.pairwise_flatMap]
  refine ⟨fun i _ => rowPairs_sorted i n, ?_⟩
  apply List.Pairwise.imp _ (List.pairwise_lt_range n)
  intro a b hab p hp q hq
  obtain ⟨p1, p2⟩ := p
  obtain ⟨q1, q2⟩ := q
  rw [mem_rowPairs] at hp hq
  left
  simp only
  omega

theorem lexLt_irrefl (p : Nat × Nat) : ¬ lexLt p p := by
  unfold lexLt; omega

theorem pairsOf_nodup (n : Nat) : (pairsOf n).Nodup := by
  apply List.Pairwise.imp _ (pairsOf_sorted n)
  intro a b hab e
  subst e
  exact lexLt_irrefl a hab


/-! ## Non-negative finite results -/

theorem linesFrom_length (w : World) (ntrials k : Nat) (l : List (Nat × Nat)) :
    (linesFrom w ntrials k l).length = l.length := by
  induction l generalizing k with
  | nil => rfl
  | cons a l ih => simp [linesFrom, ih]

theorem linesFrom_getElem? (w : World) (ntrials k0 k : Nat) (l : List (Nat × Nat))
    (ij : Nat × Nat) (h : l[k]? = some ij) :
    (linesFrom w ntrials k0 l)[k]? = some (pairLine w ntrials (k0 + k) ij) := by
  induction l generalizing k0 k with
  | nil => simp at h
  | cons a l ih =>
    cases k with
    | zero =>
      simp only [List.getElem?_cons_zero, Option.some.injEq] at h
      subst h
      simp [linesFrom]
    | succ k =>
      simp only [List.getElem?_cons_succ] at h
      simp only [linesFrom, List.getElem?_cons_succ]
      rw [ih (k0 + 1) k h, show k0 + 1 + k = k0 + (k + 1) by omega]

theorem pairRecords_length (w : World) (ntrials k : Nat) (ij : Nat × Nat) :
    (pairRecords w ntrials k ij).length = ntrials := by
  simp [pairRecords]

theorem recordsFrom_length (w : World) (ntrials k : Nat) (l : List (Nat × Nat)) :
    (recordsFrom w ntrials k l).length = l.length * ntrials := by
  induction l generalizing k with
  | nil => simp [recordsFrom]
  | cons a l ih =>
    simp only [recordsFrom, List.length_append, pairRecords_length, ih, List.length_cons]
    ring

theorem recordsFrom_getElem? (w : World) (ntrials k0 k t : Nat) (l : List (Nat × Nat))
    (ij : Nat × Nat) (h : l[k]? = some ij) (ht : t < ntrials) :
    (recordsFrom w ntrials k0 l)[k * ntrials + t]? =
      some { i_c := (ij.1 : Int), j_c := (ij.2 : Int), fcore := (ij.1 : Int),
             tcore := (ij.2 : Int), xAtStart := true,
             res := trialResult w ((k0 + k) * ntrials + t) } := by
  induction l generalizing k0 k with
  | nil => simp at h
  | cons a l ih =>
    cases k with
    | zero =>
      simp only [List.getElem?_cons_zero, Option.some.injEq] at h
      subst h
      simp only [recordsFrom, Nat.zero_mul, Nat.zero_add, Nat.add_zero]
      rw [List.getElem?_append_left (by rw [pairRecords_length]; exact ht)]
      simp [pairRecords, ht]
    | succ k =>
      simp only [List.getElem?_cons_succ] at h
      simp only [recordsFrom]
      rw [List.getElem?_append_right (by rw [pairRecords_length]; nlinarith),
        pairRecords_length,
        show (k + 1) * ntrials + t - ntrials = k * ntrials + t by
          rw [Nat.succ_mul]; omega,
        ih (k0 + 1) k h, show k0 + 1 + k = k0 + (k + 1) by omega]

theorem mem_recordsFrom (w : World) (ntrials k0 : Nat) (l : List (Nat × Nat))
    (r : TrialRecord) (h : r ∈ recordsFrom w ntrials k0 l) :
    r.xAtStart = true ∧ ∃ ij ∈ l, ∃ t, r.i_c = (ij.1 : Int) ∧ r.j_c = (ij.2 : Int) ∧
      r.fcore = (ij.1 : Int) ∧ r.tcore = (ij.2 : Int) ∧ r.res = trialResult w t ∧
      t < (k0 + l.length) * ntrials := by
  induction l generalizing k0 with
  | nil => simp [recordsFrom] at h
  | cons a l ih =>
    simp only [recordsFrom, List.mem_append] at h
    rcases h with h | h
    · simp only [pairRecords, List.mem_map, List.mem_range] at h
      obtain ⟨t, ht, rfl⟩ := h
      refine ⟨rfl, a, List.mem_cons_self _ _, k0 * ntrials + t, rfl, rfl, rfl, rfl, rfl, ?_⟩
      simp only [List.length_cons]
      nlinarith
    · obtain ⟨h1, ij, hij, t, h2, h3, h4, h5, h6, h7⟩ := ih (k0 + 1) h
      refine ⟨h1, ij, List.mem_cons_of_mem _ hij, t, h2, h3, h4, h5, h6, ?_⟩
      simp only [List.length_cons]
      rw [show k0 + (l.length + 1) = k0 + 1 + l.length by omega]
      exact h7

theorem mem_linesFrom (w : World) (ntrials k0 : Nat) (l : List (Nat × Nat))
    (ln : Line) (h : ln ∈ linesFrom w ntrials k0 l) :
    ∃ k ij, l[k]? = some ij ∧ ln = pairLine w ntrials (k0 + k) ij := by
  induction l generalizing k0 with
  | nil => simp [linesFrom] at h
  | cons a l ih =>
    simp only [linesFrom, List.mem_cons] at h
    rcases h with h | h
    · exact ⟨0, a, by simp, by simpa using h⟩
    · obtain ⟨k, ij, hk, hl⟩ := ih (k0 + 1) h
      exact ⟨k + 1, ij, by simpa using hk, by rw [hl]; congr 1; omega⟩

/-- Claim C1: for every core count `n` (and whatever the clock shows), when
every trial lets both threads return, the sweep terminates and the index
pairs of the lines it has printed are, in order, the list `pairsOf n`.  That
list holds exactly the pairs `(a, b)` with `a < n`, `b < n`, `a ≠ b`, each once,
in lexicographic order, `n * (n - 1)` of them; no printed line has `i = j`; and
for `n = 2` the list is `[(0, 1), (1, 0)]`.  (`main` is the sweep for `n = 8`.) -/
theorem C1_sweep_prints_every_ordered_pair_once (w : World) (n ntrials niter : Nat)
    (hC : ∀ t, Complete niter (w.sched t)) :
    ∃ p, sweep w n ntrials niter Proc.initial = some p ∧
      p.out.map (fun ln => (ln.i, ln.j))
        = (pairsOf n).map (fun ij => ((ij.1 : Int), (ij.2 : Int))) ∧
      p.out.length = n * (n - 1) ∧
      (∀ a b : Nat, (a, b) ∈ pairsOf n ↔ a < n ∧ b < n ∧ a ≠ b) ∧
      (pairsOf n).Pairwise lexLt ∧
      (pairsOf n).Nodup ∧
      (∀ ln ∈ p.out, ln.i ≠ ln.j) ∧
      pairsOf 2 = [(0, 1), (1, 0)] := by
  obtain ⟨p, hp, hinv⟩ := sweep_spec w n ntrials niter hC
  refine ⟨p, hp, ?_, ?_, mem_pairsOf n, pairsOf_sorted n, pairsOf_nodup n, ?_, by decide⟩
  · rw [hinv.out_eq, linesFrom_map]
  · rw [hinv.out_eq, linesFrom_length, pairsOf_length]
  · intro ln hln
    rw [hinv.out_eq] at hln
    obtain ⟨k, ij, hk, rfl⟩ := mem_linesFrom w ntrials 0 _ ln hln
    obtain ⟨a, b⟩ := ij
    have := (mem_pairsOf n a b).mp (List.getElem?_mem hk)
    simp only [pairLine]
    omega

theorem C1_sweep_prints_every_ordered_pair_once_witness :
    (∀ t, Complete NITER ((steadyWorld 100).sched t)) ∧
    ∃ p, sweep (steadyWorld 100) 2 NTRIALS NITER Proc.initial = some p ∧
      p.out.map (fun ln => (ln.i, ln.j)) = [(0, 1), (1, 0)] := by
  refine ⟨steadyWorld_complete 100, ?_⟩
  obtain ⟨p, hp, h1, _⟩ :=
    C1_sweep_prints_every_ordered_pair_once (steadyWorld 100) 2 NTRIALS NITER
      (steadyWorld_complete 100)
  exact ⟨p, hp, by rw [h1]; decide⟩

/-- Claim C3: when every trial lets both threads return, the sweep runs
`ntrials` trials for each pair, and no others: the log of trials has
`ntrials` entries per pair, and for the `k`-th pair `(i, j)` its `ntrials`
trials are the trials `k * ntrials + t`, `t < ntrials`, each run with
`i_c = i`, `j_c = j` and with the threads pinned to `i` and `j`.  The cell
`result[i][j]` ends as the `double` sum `((0 + r_0) + r_1) + ...` of the results
of exactly those trials, the value on the `k`-th line is that cell divided (as
`double`s) by `ntrials`, and the cells of no pair stay `0`.  (`main` has
`ntrials = NTRIALS`.) -/
theorem C3_line_is_mean_of_the_pairs_own_trials (w : World) (n ntrials niter : Nat)
    (hC : ∀ t, Complete niter (w.sched t)) :
    ∃ p, sweep w n ntrials niter Proc.initial = some p ∧
      p.log.length = (pairsOf n).length * ntrials ∧
      (∀ k i j : Nat, (pairsOf n)[k]? = some (i, j) →
        (∀ t, t < ntrials →
          p.log[k * ntrials + t]? =
            some { i_c := (i : Int), j_c := (j : Int), fcore := (i : Int), tcore := (j : Int),
                   xAtStart := true, res := trialResult w (k * ntrials + t) }) ∧
        p.result i j =
          (List.range ntrials).foldl
            (fun acc t => Double.add acc (trialResult w (k * ntrials + t))) (.finite 0) ∧
        p.out[k]? =
          some { i := (i : Int), j := (j : Int),
                 value := Double.div (p.result i j) (Double.ofInt (ntrials : Int)) }) ∧
      (∀ a b : Nat, (a, b) ∉ pairsOf n → p.result a b = .finite 0) := by
  obtain ⟨p, hp, hinv⟩ := sweep_spec w n ntrials niter hC
  refine ⟨p, hp, ?_, ?_, hinv.cell_untouched⟩
  · rw [hinv.log_eq, recordsFrom_length]
  · intro k i j hk
    have hcell := hinv.cell_done k i j hk
    refine ⟨?_, hcell, ?_⟩
    · intro t ht
      rw [hinv.log_eq, recordsFrom_getElem? w ntrials 0 k t _ (i, j) hk ht, Nat.zero_add]
    · rw [hinv.out_eq, linesFrom_getElem? w ntrials 0 k _ (i, j) hk, hcell, Nat.zero_add]
      rfl

theorem C3_line_is_mean_of_the_pairs_own_trials_witness :
    (∀ t, Complete NITER ((steadyWorld 100).sched t)) ∧
    ∃ p, sweep (steadyWorld 100) 2 NTRIALS NITER Proc.initial = some p ∧
      p.log.length = 2 * NTRIALS := by
  refine ⟨steadyWorld_complete 100, ?_⟩
  obtain ⟨p, hp, h1, _⟩ :=
    C3_line_is_mean_of_the_pairs_own_trials (steadyWorld 100) 2 NTRIALS NITER
      (steadyWorld_complete 100)
  exact ⟨p, hp, by rw [h1]; decide⟩

/-- Claim C9: `x` is initialised to `true`; when every trial lets both threads
return, the sweep terminates, every one of its `n * (n - 1) * ntrials` trials
found `x = true` when its threads were created, and `x` is `true` at the end;
and in any trial started with `x = true`, once both threads have left their
loops the Flipper and the Timer have each completed exactly `NITER` handoffs
and `x` is `true` again.  The sweep itself never assigns `x`: a trial starts
with the `x` the previous trial left. -/
theorem C9_every_trial_starts_with_x_true (w : World) (n ntrials : Nat)
    (hC : ∀ t, Complete NITER (w.sched t)) :
    Proc.initial.g.x = true ∧
    (∃ p, sweep w n ntrials NITER Proc.initial = some p ∧
      p.log.length = n * (n - 1) * ntrials ∧
      (∀ r ∈ p.log, r.xAtStart = true) ∧
      p.g.x = true) ∧
    (∀ (clock : Nat → timespec) (g : Globals) (sched : List Role), g.x = true →
      ((Trial.start g).run clock NITER sched).fpc = .fin →
      ((Trial.start g).run clock NITER sched).tpc = .fin →
        ((Trial.start g).run clock NITER sched).fi = NITER ∧
        ((Trial.start g).run clock NITER sched).ti = NITER ∧
        ((Trial.start g).run clock NITER sched).writes.length = 2 * NITER ∧
        ((Trial.start g).run clock NITER sched).x = true) ∧
    NITER = 1000 := by
  refine ⟨rfl, ?_, ?_, rfl⟩
  · obtain ⟨p, hp, hinv⟩ := sweep_spec w n ntrials NITER hC
    refine ⟨p, hp, ?_, ?_, hinv.ok.x_true⟩
    · rw [hinv.log_eq, recordsFrom_length, pairsOf_length]
    · intro r hr
      rw [hinv.log_eq] at hr
      exact (mem_recordsFrom w ntrials 0 _ r hr).1
  · intro clock g sched hx hf ht
    have h := TrialInv_reachable clock NITER g hx sched
    generalize (Trial.start g).run clock NITER sched = s at h hf ht ⊢
    have f1 := h.f_fin hf
    have t1 := (h.t_fin ht).1
    refine ⟨f1, t1, ?_, h.x_iff.mpr (by omega)⟩
    rw [h.writes_eq, altWrites_length]; omega

theorem C9_every_trial_starts_with_x_true_witness :
    (∀ t, Complete NITER ((steadyWorld 100).sched t)) ∧
    ∃ p, sweep (steadyWorld 100) 8 NTRIALS NITER Proc.initial = some p ∧
      p.log.length = 168000 ∧ ∀ r ∈ p.log, r.xAtStart = true := by
  refine ⟨steadyWorld_complete 100, ?_⟩
  obtain ⟨_, ⟨p, hp, h1, h2, _⟩, _⟩ :=
    C9_every_trial_starts_with_x_true (steadyWorld 100) 8 NTRIALS (steadyWorld_complete 100)
  exact ⟨p, hp, by rw [h1]; decide, h2⟩

/-! ## Claim C4: non-negative, finite latencies -/

theorem work_stepFlipper_le (n : Nat) (s : Trial) (h9 : s.fpc ≠ .clock) :
    (s.stepFlipper n).work n ≤ s.work n := by
  unfold Trial.stepFlipper Trial.work
  cases hpc : s.fpc with
  | init => simp only [Pc.rank]; omega
  | barrier =>
    by_cases hr : (pthread_barrier_wait s.barrier).2 = 1
    · rw [if_pos hr]; simp only [Pc.rank]; omega
    · rw [if_neg hr]; simp only [Pc.rank]; omega
  | asleep =>
    by_cases hw : s.fwoken = true
    · rw [if_pos hw]; simp only [Pc.rank]; omega
    · rw [if_neg hw, hpc]
  | clock => exact absurd hpc h9
  | loop =>
    by_cases hlt : s.fi < n
    · rw [if_pos hlt]
      by_cases hs : (atomic_compare_exchange_strong_explicit s.x true false).success = true
      · simp only [hs, if_true, hpc, Pc.rank]; omega
      · have hs2 : (atomic_compare_exchange_strong_explicit s.x true false).success = false := by simpa using hs
        simp [hs2, hpc]
    · rw [if_neg hlt]; simp only [Pc.rank]; omega
  | fin => simp only [hpc]; exact Nat.le_refl _

theorem work_stepTimer_le (clock : Nat → timespec) (n : Nat) (s : Trial) :
    (s.stepTimer clock n).work n ≤ s.work n := by
  unfold Trial.stepTimer Trial.work
  cases hpc : s.tpc with
  | init => simp only [Pc.rank]; omega
  | barrier =>
    by_cases hr : (pthread_barrier_wait s.barrier).2 = 1
    · rw [if_pos hr]; simp only [Pc.rank]; omega
    · rw [if_neg hr]; simp only [Pc.rank]; omega
  | asleep =>
    by_cases hw : s.twoken = true
    · rw [if_pos hw]; simp only [Pc.rank]; omega
    · rw [if_neg hw, hpc]
  | clock => simp only [Pc.rank]; omega
  | loop =>
    by_cases hlt : s.ti < n
    · rw [if_pos hlt]
      by_cases hs : (atomic_compare_exchange_strong_explicit s.x false true).success = true
      · simp only [hs, if_true, hpc, Pc.rank]; omega
      · have hs2 : (atomic_compare_exchange_strong_explicit s.x false true).success = false := by simpa using hs
        simp [hs2, hpc]
    · rw [if_neg hlt]; simp only [Pc.rank]; omega
  | fin => simp only [hpc]; exact Nat.le_refl _

/-- The Flipper moves unless it has returned, sleeps unwoken, or finds `x`
false in its loop. -/
theorem work_stepFlipper_lt (n : Nat) (s : Trial) (h9 : s.fpc ≠ .clock)
    (hfin : s.fpc ≠ .fin) (hsl : s.fpc = .asleep → s.fwoken = true)
    (hlp : s.fpc = .loop → s.fi < n → s.x = true) :
    (s.stepFlipper n).work n < s.work n := by
  unfold Trial.stepFlipper Trial.work
  cases hpc : s.fpc with
  | init => simp only [Pc.rank]; omega
  | barrier =>
    by_cases hr : (pthread_barrier_wait s.barrier).2 = 1
    · rw [if_pos hr]; simp only [Pc.rank]; omega
    · rw [if_neg hr]; simp only [Pc.rank]; omega
  | asleep =>
    rw [if_pos (hsl hpc)]; simp only [Pc.rank]; omega
  | clock => exact absurd hpc h9
  | loop =>
    by_cases hlt : s.fi < n
    · rw [if_pos hlt]
      have hx := hlp hpc hlt
      simp only [atomic_compare_exchange_strong_explicit, hx, if_true, hpc, Pc.rank]
      omega
    · rw [if_neg hlt]; simp only [Pc.rank]; omega
  | fin => exact absurd hpc hfin

/-- The Timer moves unless it has returned, sleeps unwoken, or finds `x` true
in its loop. -/
theorem work_stepTimer_lt (clock : Nat → timespec) (n : Nat) (s : Trial)
    (hfin : s.tpc ≠ .fin) (hsl : s.tpc = .asleep → s.twoken = true)
    (hlp : s.tpc = .loop → s.ti < n → s.x = false) :
    (s.stepTimer clock n).work n < s.work n := by
  unfold Trial.stepTimer Trial.work
  cases hpc : s.tpc with
  | init => simp only [Pc.rank]; omega
  | barrier =>
    by_cases hr : (pthread_barrier_wait s.barrier).2 = 1
    · rw [if_pos hr]; simp only [Pc.rank]; omega
    · rw [if_neg hr]; simp only [Pc.rank]; omega
  | asleep =>
    rw [if_pos (hsl hpc)]; simp only [Pc.rank]; omega
  | clock => simp only [Pc.rank]; omega
  | loop =>
    by_cases hlt : s.ti < n
    · rw [if_pos hlt]
      have hx := hlp hpc hlt
      simp only [atomic_compare_exchange_strong_explicit, hx, hpc, Pc.rank]
      simp
      omega
    · rw [if_neg hlt]; simp only [Pc.rank]; omega
  | fin => exact absurd hpc hfin

/-- When the Flipper cannot move its step changes nothing. -/
theorem stepFlipper_stuck (n : Nat) (s : Trial)
    (h : s.fpc = .fin ∨ (s.fpc = .asleep ∧ s.fwoken = false) ∨
      (s.fpc = .loop ∧ s.fi < n ∧ s.x = false)) :
    s.stepFlipper n = s := by
  unfold Trial.stepFlipper
  rcases h with h | ⟨h, hw⟩ | ⟨h, hlt, hx⟩
  · simp only [h]
  · simp [h, hw]
  · simp [h, hlt, hx, atomic_compare_exchange_strong_explicit]

/-- One round of turns, Flipper then Timer, reduces the work left in every
reachable state in which a thread has not returned. -/
theorem round_progress (clock : Nat → timespec) (n : Nat) (g : Globals) (s : Trial)
    (h : TrialInv clock n g s) (hB : TrialBarrierInv s) (hj : s.joined = false) :
    ((s.stepFlipper n).stepTimer clock n).work n < s.work n := by
  by_cases hstuck : s.fpc = .fin ∨ (s.fpc = .asleep ∧ s.fwoken = false) ∨
      (s.fpc = .loop ∧ s.fi < n ∧ s.x = false)
  · rw [stepFlipper_stuck n s hstuck]
    have hnj : ¬ (s.fpc = .fin ∧ s.tpc = .fin) := by
      rw [← joined_iff, hj]; decide
    apply work_stepTimer_lt
    · intro ht
      rcases hstuck with hf | ⟨hf, _⟩ | ⟨hf, hlt, _⟩
      · exact hnj ⟨hf, ht⟩
      · have := hB.f_wake hf (by rw [ht]; rfl)
        simp_all
      · have := (h.t_fin ht).1
        have := h.ti_le_fi
        omega
    · intro ht
      rcases hstuck with hf | ⟨hf, hw⟩ | ⟨hf, _, _⟩
      · exact hB.t_wake ht (by rw [hf]; rfl)
      · have := hB.f_wake hf (by rw [ht]; rfl)
        simp_all
      · exact hB.t_wake ht (by rw [hf]; rfl)
    · intro ht hlt
      rcases hstuck with hf | ⟨hf, hw⟩ | ⟨hf, _, hx⟩
      · have hfi := h.f_fin hf
        cases hx : s.x
        · rfl
        · have := h.x_iff.mp hx
          omega
      · have := hB.f_wake hf (by rw [ht]; rfl)
        simp_all
      · exact hx
  · have hlt := work_stepFlipper_lt n s hB.f_not_clock
      (fun hf => hstuck (Or.inl hf))
      (fun hf => by
        cases hw : s.fwoken
        · exact absurd (Or.inr (Or.inl ⟨hf, hw⟩)) hstuck
        · rfl)
      (fun hf hl => by
        cases hx : s.x
        · exact absurd (Or.inr (Or.inr ⟨hf, hl, hx⟩)) hstuck
        · rfl)
    exact lt_of_le_of_lt (work_stepTimer_le clock n _) hlt

theorem step_of_joined (clock : Nat → timespec) (n : Nat) (s : Trial) (r : Role)
    (hj : s.joined = true) : s.step clock n r = s := by
  obtain ⟨hf, ht⟩ := (joined_iff s).mp hj
  cases r
  · simp [Trial.step, Trial.stepFlipper, hf]
  · simp [Trial.step, Trial.stepTimer, ht]

theorem run_of_joined (clock : Nat → timespec) (n : Nat) (s : Trial) (sched : List Role)
    (hj : s.joined = true) : s.run clock n sched = s := by
  induction sched with
  | nil => rfl
  | cons r rs ih =>
    have : s.run clock n (r :: rs) = (s.step clock n r).run clock n rs := rfl
    rw [this, step_of_joined clock n s r hj, ih]

/-- From a reachable state with at most `k` units of work left, `k` rounds of
turns let both threads return. -/
theorem roundRobin_finishes (clock : Nat → timespec) (n : Nat) (g : Globals) (k : Nat)
    (s : Trial) (h : TrialInv clock n g s) (hB : TrialBarrierInv s) (hk : s.work n ≤ k) :
    (s.run clock n (roundRobin k)).joined = true := by
  induction k generalizing s with
  | zero =>
    have h0 : s.work n = 0 := by omega
    unfold Trial.work at h0
    have hf : s.fpc = .fin := by
      cases hpc : s.fpc <;> rw [hpc] at h0 <;> simp [Pc.rank] at h0 ⊢
    have ht : s.tpc = .fin := by
      cases hpc : s.tpc <;> rw [hpc] at h0 <;> simp [Pc.rank] at h0 ⊢
    simp [roundRobin, Trial.run, Trial.joined, hf, ht]
  | succ k ih =>
    cases hj : s.joined
    · have hlt := round_progress clock n g s h hB hj
      have e : s.run clock n (roundRobin (k + 1))
          = ((s.stepFlipper n).stepTimer clock n).run clock n (roundRobin k) := by
        simp [roundRobin, Trial.run, Trial.step]
      rw [e]
      apply ih
      · exact TrialInv_stepTimer clock n g _ (TrialInv_stepFlipper clock n g s h)
      · exact TrialBarrierInv_stepTimer clock n _ (TrialBarrierInv_stepFlipper n s hB)
      · omega
    · rw [run_of_joined clock n s _ hj, hj]

theorem work_run_le (clock : Nat → timespec) (n : Nat) (sched : List Role) (s : Trial)
    (hB : TrialBarrierInv s) : (s.run clock n sched).work n ≤ s.work n := by
  induction sched generalizing s with
  | nil => exact Nat.le_refl _
  | cons r rs ih =>
    have e : s.run clock n (r :: rs) = (s.step clock n r).run clock n rs := rfl
    rw [e]
    refine Nat.le_trans (ih _ (TrialBarrierInv_step clock n s r hB)) ?_
    cases r
    · exact work_stepFlipper_le n s hB.f_not_clock
    · exact work_stepTimer_le clock n s

/-- No interleaving leaves a trial stuck: whatever the threads have done so
far, `2 * n + 10` further rounds of turns let both return. -/
theorem trial_can_complete (clock : Nat → timespec) (n : Nat) (g : Globals)
    (hx : g.x = true) (hb : g.barrier = barrier2) (sched : List Role) :
    ((Trial.start g).run clock n (sched ++ roundRobin (2 * n + 10))).joined = true := by
  rw [Trial.run_append]
  apply roundRobin_finishes clock n g
  · exact TrialInv_reachable clock n g hx sched
  · exact TrialBarrierInv_run clock n sched _ (TrialBarrierInv_start g hb)
  · refine Nat.le_trans (work_run_le clock n sched _ (TrialBarrierInv_start g hb)) ?_
    simp [Trial.work, Trial.start, Pc.rank]
    omega

/-- Every interleaving followed by `2 * n + 10` rounds of turns is complete. -/
theorem complete_of_fair_suffix (n : Nat) (sched : List Role) :
    Complete n (sched ++ roundRobin (2 * n + 10)) :=
  fun clock g hx hb => trial_can_complete clock n g hx hb sched

/-! ## Claim C10: the handoff protocol completes -/

/-- Claim C10: in every state a trial reaches from `x = true`, if a role has
handoffs left then the next compare-exchange of some role with handoffs left
succeeds (the Flipper's when `x` is true, the Timer's when `x` is false); the
Timer has never completed more handoffs than the Flipper, so it completes its
`n`-th only after the Flipper's `n`-th; once the Timer has taken its end
timestamp (it has returned and `res` is written) all `2 * n` handoffs have
happened; and, with the barrier as `main` initialised it, the trial can always
be completed: from the state reached, `2 * n + 10` rounds of turns let both
threads return. -/
theorem C10_handoff_never_stuck (clock : Nat → timespec) (n : Nat) (g : Globals)
    (hx : g.x = true) (sched : List Role) :
    ((((Trial.start g).run clock n sched).fi < n ∨ ((Trial.start g).run clock n sched).ti < n) →
      (((Trial.start g).run clock n sched).fi < n ∧
        (atomic_compare_exchange_strong_explicit
          ((Trial.start g).run clock n sched).x true false).success = true) ∨
      (((Trial.start g).run clock n sched).ti < n ∧
        (atomic_compare_exchange_strong_explicit
          ((Trial.start g).run clock n sched).x false true).success = true)) ∧
    ((Trial.start g).run clock n sched).ti ≤ ((Trial.start g).run clock n sched).fi ∧
    (((Trial.start g).run clock n sched).ti = n → ((Trial.start g).run clock n sched).fi = n) ∧
    ((((Trial.start g).run clock n sched).tpc = .fin ∨
        ((Trial.start g).run clock n sched).res ≠ none) →
      ((Trial.start g).run clock n sched).fi = n ∧
      ((Trial.start g).run clock n sched).ti = n ∧
      ((Trial.start g).run clock n sched).writes.length = 2 * n) ∧
    (g.barrier = barrier2 →
      ((Trial.start g).run clock n (sched ++ roundRobin (2 * n + 10))).joined = true) := by
  have h := TrialInv_reachable clock n g hx sched
  have hdone : g.barrier = barrier2 →
      ((Trial.start g).run clock n (sched ++ roundRobin (2 * n + 10))).joined = true :=
    fun hb => trial_can_complete clock n g hx hb sched
  generalize (Trial.start g).run clock n (sched ++ roundRobin (2 * n + 10)) = sd at hdone ⊢
  generalize (Trial.start g).run clock n sched = s at h ⊢
  have hfin : s.tpc = .fin → s.fi = n ∧ s.ti = n ∧ s.writes.length = 2 * n := by
    intro ht
    obtain ⟨t1, _, _⟩ := h.t_fin ht
    have := h.ti_le_fi
    have := h.fi_le
    refine ⟨by omega, t1, ?_⟩
    rw [h.writes_eq, altWrites_length]; omega
  refine ⟨?_, h.ti_le_fi, ?_, ?_, hdone⟩
  · intro hu
    have h1 := h.ti_le_fi
    have h2 := h.fi_le_succ
    have h3 := h.fi_le
    cases hxs : s.x
    · right
      have : ¬ s.fi = s.ti := fun e => by
        have := h.x_iff.mpr e
        rw [hxs] at this; exact absurd this (by decide)
      exact ⟨by omega, by simp [atomic_compare_exchange_strong_explicit]⟩
    · left
      have := h.x_iff.mp hxs
      exact ⟨by omega, by simp [atomic_compare_exchange_strong_explicit]⟩
  · intro ht
    have := h.ti_le_fi
    have := h.fi_le
    omega
  · rintro (ht | hr)
    · exact hfin ht
    · apply hfin
      cases hpc : s.tpc with
      | fin => rfl
      | loop => exact absurd (h.t_loop hpc).2.2 hr
      | init => exact absurd (h.t_before (by rw [hpc]; rfl)).2.2 hr
      | barrier => exact absurd (h.t_before (by rw [hpc]; rfl)).2.2 hr
      | asleep => exact absurd (h.t_before (by rw [hpc]; rfl)).2.2 hr
      | clock => exact absurd (h.t_before (by rw [hpc]; rfl)).2.2 hr

theorem C10_handoff_never_stuck_witness :
    Proc.initial.g.x = true ∧
    ((Trial.start Proc.initial.g).run (steadyWorld 7).clock 2 (roundRobin 4)).ti
      ≤ ((Trial.start Proc.initial.g).run (steadyWorld 7).clock 2 (roundRobin 4)).fi :=
  ⟨rfl, (C10_handoff_never_stuck (steadyWorld 7).clock 2 Proc.initial.g rfl (roundRobin 4)).2.1⟩

end C2C
